import Mathlib

/-!
# Verification of the PoeClaw session/credential pipeline

A shallow embedding of the security-relevant parts of the PoeClaw gateway:

* `src/auth/session.ts` — session token mint/verify (HMAC-SHA256 over a
  base64-encoded JSON payload), API-key encryption (AES-GCM with a
  prepended random IV), cookie extraction;
* `src/routes/auth.ts` — the login rate limiter, the login status pipeline
  and the `GET /api/auth/me` handler;
* `src/index.ts` — the session middleware and the WebSocket close-code
  sanitizer `safeCloseCode`.

Strings are modelled as `List Char` (JS strings restricted to Unicode
scalar values); bytes as `Nat` below 256.  Platform primitives are
modelled faithfully where their exact behavior is load-bearing:
`crypto.subtle`'s HMAC-SHA256 is implemented in full (checked against the
FIPS 180-4 / RFC 4231 test vectors), `btoa`/`atob` follow the WHATWG
forgiving-base64 algorithm (including its discarding of trailing bits),
and `TextEncoder`/`TextDecoder` implement UTF-8.  The AES-GCM core is
modelled at its interface: a CTR keystream and an authentication-tag
function are parameters, since every property claimed of the repository
code holds for (or fails for) every instantiation of that interface.
-/

/-! ## Bytes and 32-bit words -/

/-- JS string model: a list of Unicode scalar values. -/
abbrev JStr : Type := List Char

/-- Shorthand: a list of byte values. -/
abbrev Bytes : Type := List Nat

/-- String literal to `JStr`. -/
def cs (s : String) : JStr := s.toList

/-- Reduce modulo 2^32 (32-bit word wraparound). -/
def w32 (n : Nat) : Nat := n % 4294967296

/-- Right-rotate a 32-bit word by `n` bits. -/
def rotr32 (n x : Nat) : Nat := x / 2 ^ n + x % 2 ^ n * 2 ^ (32 - n)

/-! ## SHA-256 (FIPS 180-4), used by `crypto.subtle` HMAC-SHA256 -/

def shaSsig0 (x : Nat) : Nat := rotr32 7 x ^^^ rotr32 18 x ^^^ x / 2 ^ 3

def shaSsig1 (x : Nat) : Nat := rotr32 17 x ^^^ rotr32 19 x ^^^ x / 2 ^ 10

def shaBsig0 (x : Nat) : Nat := rotr32 2 x ^^^ rotr32 13 x ^^^ rotr32 22 x

def shaBsig1 (x : Nat) : Nat := rotr32 6 x ^^^ rotr32 11 x ^^^ rotr32 25 x

def shaCh (e f g : Nat) : Nat := (e &&& f) ^^^ ((e ^^^ 4294967295) &&& g)

def shaMaj (a b c : Nat) : Nat := (a &&& b) ^^^ (a &&& c) ^^^ (b &&& c)

/-- The SHA-256 round constants. -/
def shaK : List Nat :=
  [1116352408, 1899447441, 3049323471, 3921009573, 961987163,
   1508970993, 2453635748, 2870763221, 3624381080, 310598401,
   607225278, 1426881987, 1925078388, 2162078206, 2614888103,
   3248222580, 3835390401, 4022224774, 264347078, 604807628,
   770255983, 1249150122, 1555081692, 1996064986, 2554220882,
   2821834349, 2952996808, 3210313671, 3336571891, 3584528711,
   113926993, 338241895, 666307205, 773529912, 1294757372,
   1396182291, 1695183700, 1986661051, 2177026350, 2456956037,
   2730485921, 2820302411, 3259730800, 3345764771, 3516065817,
   3600352804, 4094571909, 275423344, 430227734, 506948616,
   659060556, 883997877, 958139571, 1322822218, 1537002063,
   1747873779, 1955562222, 2024104815, 2227730452, 2361852424,
   2428436474, 2756734187, 3204031479, 3329325298]

/-- The eight SHA-256 working variables. -/
structure ShaState where
  a : Nat
  b : Nat
  c : Nat
  d : Nat
  e : Nat
  f : Nat
  g : Nat
  h : Nat
  deriving Repr, DecidableEq

/-- The SHA-256 initial hash value. -/
def shaH0 : ShaState :=
  ⟨1779033703, 3144134277, 1013904242, 2773480762,
    1359893119, 2600822924, 528734635, 1541459225⟩

/-- One SHA-256 compression round; `kw` is `K[t] + W[t]` mod 2^32. -/
def shaRound (s : ShaState) (kw : Nat) : ShaState :=
  let t1 := w32 (s.h + shaBsig1 s.e + shaCh s.e s.f s.g + kw)
  let t2 := w32 (shaBsig0 s.a + shaMaj s.a s.b s.c)
  ⟨w32 (t1 + t2), s.a, s.b, s.c, w32 (s.d + t1), s.e, s.f, s.g⟩

def shaRounds (s : ShaState) : List Nat → ShaState
  | [] => s
  | kw :: rest => shaRounds (shaRound s kw) rest

/-- Big-endian 32-bit word from four bytes. -/
def wordOf (a b c d : Nat) : Nat := ((a * 256 + b) * 256 + c) * 256 + d

/-- The first 16 schedule words of a 64-byte block. -/
def shaWords16 : Bytes → List Nat
  | a :: b :: c :: d :: rest => wordOf a b c d :: shaWords16 rest
  | _ => []

/-- Extend the message schedule (kept reversed, newest word first) by `n` words. -/
def shaSchedExt (r : List Nat) : Nat → List Nat
  | 0 => r
  | n + 1 =>
    shaSchedExt
      (w32 (shaSsig1 (r.getD 1 0) + r.getD 6 0 + shaSsig0 (r.getD 14 0) + r.getD 15 0) :: r) n

/-- The 64-word message schedule of one block. -/
def shaSchedule (block : Bytes) : List Nat :=
  (shaSchedExt (shaWords16 block).reverse 48).reverse

/-- SHA-256 compression of one 64-byte block. -/
def shaCompress (s : ShaState) (block : Bytes) : ShaState :=
  let t := shaRounds s (List.zipWith (fun k w => w32 (k + w)) shaK (shaSchedule block))
  ⟨w32 (s.a + t.a), w32 (s.b + t.b), w32 (s.c + t.c), w32 (s.d + t.d),
   w32 (s.e + t.e), w32 (s.f + t.f), w32 (s.g + t.g), w32 (s.h + t.h)⟩

/-- Big-endian 8-byte encoding of a 64-bit length. -/
def be8 (n : Nat) : Bytes :=
  [n / 2 ^ 56 % 256, n / 2 ^ 48 % 256, n / 2 ^ 40 % 256, n / 2 ^ 32 % 256,
   n / 2 ^ 24 % 256, n / 2 ^ 16 % 256, n / 2 ^ 8 % 256, n % 256]

/-- SHA-256 padding: 0x80, zeros, and the 64-bit message bit length. -/
def shaPad (msg : Bytes) : Bytes :=
  msg ++ 0x80 :: List.replicate ((64 - (msg.length + 9) % 64) % 64) 0 ++ be8 (8 * msg.length)

/-- Split a padded message into `n` 64-byte blocks. -/
def shaChunks : Nat → Bytes → List Bytes
  | 0, _ => []
  | n + 1, bs => bs.take 64 :: shaChunks n (bs.drop 64)

/-- Big-endian 4-byte encoding of a 32-bit word. -/
def be4 (n : Nat) : Bytes := [n / 2 ^ 24 % 256, n / 2 ^ 16 % 256, n / 2 ^ 8 % 256, n % 256]

/-- The final SHA-256 digest bytes. -/
def shaDigest (s : ShaState) : Bytes :=
  be4 s.a ++ be4 s.b ++ be4 s.c ++ be4 s.d ++ be4 s.e ++ be4 s.f ++ be4 s.g ++ be4 s.h

/-- SHA-256 of a byte list. -/
def sha256 (msg : Bytes) : Bytes :=
  let padded := shaPad msg
  shaDigest ((shaChunks (padded.length / 64) padded).foldl shaCompress shaH0)

/-- HMAC-SHA256 (RFC 2104), the algorithm behind
`crypto.subtle.sign('HMAC', …)` / `crypto.subtle.verify('HMAC', …)`. -/
def hmacSha256 (key msg : Bytes) : Bytes :=
  let k0 := if key.length > 64 then sha256 key else key
  let kp := k0 ++ List.replicate (64 - k0.length) 0
  sha256 ((kp.map (fun b => b ^^^ 0x5c)) ++ sha256 ((kp.map (fun b => b ^^^ 0x36)) ++ msg))

-- Sanity: the FIPS 180-4 "abc" vector.
example : sha256 ((cs ("abc")).map Char.toNat) =
    [0xba, 0x78, 0x16, 0xbf, 0x8f, 0x01, 0xcf, 0xea, 0x41, 0x41, 0x40, 0xde, 0x5d, 0xae, 0x22, 0x23,
     0xb0, 0x03, 0x61, 0xa3, 0x96, 0x17, 0x7a, 0x9c, 0xb4, 0x10, 0xff, 0x61, 0xf2, 0x00, 0x15, 0xad] := by
  decide

/-! ## UTF-8 (`TextEncoder` / `TextDecoder`) -/

/-- UTF-8 encoding of one Unicode scalar value. -/
def utf8Char (c : Char) : Bytes :=
  let n := c.toNat
  if n < 0x80 then [n]
  else if n < 0x800 then [0xC0 + n / 64, 0x80 + n % 64]
  else if n < 0x10000 then [0xE0 + n / 4096, 0x80 + n / 64 % 64, 0x80 + n % 64]
  else [0xF0 + n / 262144, 0x80 + n / 4096 % 64, 0x80 + n / 64 % 64, 0x80 + n % 64]

/-- Model of `TextEncoder().encode`: UTF-8 bytes of a string. -/
def utf8Encode (s : JStr) : Bytes := s.flatMap utf8Char

/-- The U+FFFD replacement character. -/
def replChar : Char := Char.ofNat 0xFFFD

/-- One UTF-8 decoding step: classify the lead byte, consume the
continuation bytes, produce the scalar value (U+FFFD on ill-formed
input, whose exact handling is not load-bearing for any claim). -/
def utf8Step (b1 : Nat) (rest : Bytes) : Char × Bytes :=
  if b1 < 0x80 then (Char.ofNat b1, rest)
  else if b1 < 0xC0 then (replChar, rest)
  else if b1 < 0xE0 then
    match rest with
    | b2 :: rest2 =>
      ((if 0x80 ≤ b2 ∧ b2 < 0xC0 then Char.ofNat ((b1 - 0xC0) * 64 + (b2 - 0x80)) else replChar),
        rest2)
    | [] => (replChar, [])
  else if b1 < 0xF0 then
    match rest with
    | b2 :: b3 :: rest3 =>
      ((if (0x80 ≤ b2 ∧ b2 < 0xC0) ∧ (0x80 ≤ b3 ∧ b3 < 0xC0) then
          Char.ofNat ((b1 - 0xE0) * 4096 + (b2 - 0x80) * 64 + (b3 - 0x80))
        else replChar), rest3)
    | _ => (replChar, [])
  else
    match rest with
    | b2 :: b3 :: b4 :: rest4 =>
      ((if ((0x80 ≤ b2 ∧ b2 < 0xC0) ∧ (0x80 ≤ b3 ∧ b3 < 0xC0)) ∧ (0x80 ≤ b4 ∧ b4 < 0xC0) then
          Char.ofNat ((b1 - 0xF0) * 262144 + (b2 - 0x80) * 4096 + (b3 - 0x80) * 64 + (b4 - 0x80))
        else replChar), rest4)
    | _ => (replChar, [])

/-- UTF-8 decoding with fuel (the fuel is an upper bound on the number of
decoded characters; each step consumes at least one byte). -/
def utf8DecodeAux : Nat → Bytes → JStr
  | _, [] => []
  | 0, _ => []
  | fuel + 1, b1 :: rest =>
    let st := utf8Step b1 rest
    st.1 :: utf8DecodeAux fuel st.2

/-- Model of `TextDecoder().decode`: total UTF-8 decoding, substituting
U+FFFD on ill-formed input (the default non-fatal `TextDecoder` mode). -/
def utf8Decode (bs : Bytes) : JStr := utf8DecodeAux bs.length bs

/-! ## Base64: `btoa` / `atob` (WHATWG forgiving-base64) -/

/-- The base64 alphabet. -/
def b64Alphabet : JStr :=
  cs ("ABCDEFGHIJKLMNOPQRSTUVWXYZabcdefghijklmnopqrstuvwxyz0123456789+/")

/-- The base64 character for a 6-bit group. -/
def b64Char (n : Nat) : Char := b64Alphabet.getD n ('A')

def b64IndexAux (c : Char) : JStr → Nat → Option Nat
  | [], _ => none
  | d :: rest, i => if c = d then some i else b64IndexAux c rest (i + 1)

/-- The 6-bit group of a base64 character, if it is one. -/
def b64Index (c : Char) : Option Nat := b64IndexAux c b64Alphabet 0

/-- The 6-bit groups of a byte list (big-endian bit order, no padding). -/
def b64Groups : Bytes → List Nat
  | [] => []
  | [a] => [a / 4, a % 4 * 16]
  | [a, b] => [a / 4, a % 4 * 16 + b / 16, b % 16 * 4]
  | a :: b :: c :: rest =>
    [a / 4, a % 4 * 16 + b / 16, b % 16 * 4 + c / 64, c % 64] ++ b64Groups rest

/-- Number of `=` padding characters for a byte count. -/
def b64PadLen (n : Nat) : Nat := if n % 3 = 1 then 2 else if n % 3 = 2 then 1 else 0

/-- Model of `btoa` on a list of byte values (the code points of its Latin-1 input). -/
def btoaBytes (bs : Bytes) : JStr :=
  (b64Groups bs).map b64Char ++ List.replicate (b64PadLen bs.length) '='

/-- ASCII whitespace, removed by forgiving-base64 decode. -/
def isB64Ws (c : Char) : Bool :=
  c.toNat = 9 || c.toNat = 10 || c.toNat = 12 || c.toNat = 13 || c.toNat = 32

/-- Remove one or two trailing `=` characters. -/
def b64StripPad (l : JStr) : JStr :=
  if l.getLast? = some '=' then
    if l.dropLast.getLast? = some '=' then l.dropLast.dropLast else l.dropLast
  else l

/-- Map every character to its 6-bit group, failing on any non-alphabet character. -/
def b64Indices : JStr → Option (List Nat)
  | [] => some []
  | c :: rest =>
    match b64Index c, b64Indices rest with
    | some i, some t => some (i :: t)
    | _, _ => none

/-- Reassemble bytes from 6-bit groups, discarding leftover trailing bits
(4 bits after two groups, 2 bits after three) exactly as forgiving-base64
does. -/
def b64Decode4 : List Nat → Bytes
  | [] => []
  | [_] => []
  | [i, j] => [i * 4 + j / 16]
  | [i, j, k] => [i * 4 + j / 16, j % 16 * 16 + k / 4]
  | i :: j :: k :: l :: rest => [i * 4 + j / 16, j % 16 * 16 + k / 4, k % 4 * 64 + l] ++ b64Decode4 rest

/-- Model of `atob`: the WHATWG forgiving-base64 decode, `none` where JS throws
`InvalidCharacterError`.  Returns the code points of the binary string. -/
def atobBytes (s : JStr) : Option Bytes :=
  let f := s.filter (fun c => !isB64Ws c)
  let body := if f.length % 4 = 0 then b64StripPad f else f
  if body.length % 4 = 1 then none
  else (b64Indices body).map b64Decode4

-- Sanity: forgiving-base64 discards nonzero leftover bits ("AB==" = "AA==")
-- and accepts unpadded input.
example : atobBytes (cs ("AB==")) = some [0] := by decide
example : atobBytes (cs ("AA==")) = some [0] := by decide
example : atobBytes (cs ("AAA")) = some [0, 0] := by decide
example : atobBytes (cs ("TWFu")) = some [77, 97, 110] := by decide
example : atobBytes (cs ("A===")) = none := by decide

/-! ## The session payload and its JSON wire form

The login handler (`src/routes/auth.ts`) builds the session payload object
literal with keys in the order `userHash`, `keyLast4`, `models`,
`createdAt`; `JSON.stringify` emits exactly that order, and each model as
an object with keys `id`, `name`.  `parsePayload` models the platform
`JSON.parse` restricted to this shape — the only shape occurring in
tokens minted by `createSessionToken`. -/

/-- A Poe model entry (`src/types.ts`). -/
structure PoeModel where
  id : JStr
  name : JStr
  deriving Repr, DecidableEq

/-- The session payload (`PoeSessionUser` in `src/types.ts`). -/
structure PoeSessionUser where
  userHash : JStr
  keyLast4 : JStr
  models : List PoeModel
  createdAt : Nat
  deriving Repr, DecidableEq

/-- Decimal digit characters of a natural number, highest first (with fuel). -/
def natCharsAux : Nat → Nat → JStr
  | 0, _ => []
  | fuel + 1, n =>
    if n < 10 then [Char.ofNat (48 + n)]
    else natCharsAux fuel (n / 10) ++ [Char.ofNat (48 + n % 10)]

/-- Decimal representation of a natural number, as `JSON.stringify` prints
an integral JS number. -/
def natChars (n : Nat) : JStr := natCharsAux (n + 1) n

/-- Comma-separated concatenation, as in a JSON array literal. -/
def joinComma : List JStr → JStr
  | [] => []
  | [x] => x
  | x :: rest => x ++ ',' :: joinComma rest

/-- JSON text of one model object (quotes written out so the text aligns
with the parsing steps; the character list is the same). -/
def encodeModel (m : PoeModel) : JStr :=
  cs ("\x7b\"id\":\"") ++ (m.id ++ '\"' :: (cs (",\"name\":\"") ++ (m.name ++ '\"' :: ['\x7d'])))

/-- JSON text of the models array. -/
def encodeModels (ms : List PoeModel) : JStr :=
  '[' :: joinComma (ms.map encodeModel) ++ [']']

/-- JSON text of the session payload: what `JSON.stringify(payload)`
produces for payloads whose strings need no escaping. -/
def encodePayload (p : PoeSessionUser) : JStr :=
  cs ("\x7b\"userHash\":\"") ++ (p.userHash ++ '\"' :: (cs (",\"keyLast4\":\"") ++
    (p.keyLast4 ++ '\"' :: (cs (",\"models\":") ++ (encodeModels p.models ++
    (cs (",\"createdAt\":") ++ (natChars p.createdAt ++ ['\x7d'])))))))

/-- Consume an exact literal. -/
def pLit (lit s : JStr) : Option JStr :=
  if lit.isPrefixOf s then some (s.drop lit.length) else none

/-- Consume a string body up to and including its closing quote. -/
def pQStr (s : JStr) : Option (JStr × JStr) :=
  match s.dropWhile (fun c => c ≠ '"') with
  | '"' :: r => some (s.takeWhile (fun c => c ≠ '"'), r)
  | _ => none

/-- Decimal digit test. -/
def isDigitC (c : Char) : Bool := 48 ≤ c.toNat && c.toNat ≤ 57

/-- Value of a digit string. -/
def digitsVal (ds : JStr) : Nat := ds.foldl (fun acc c => acc * 10 + (c.toNat - 48)) 0

/-- Consume a nonempty run of decimal digits. -/
def pDigits (s : JStr) : Option (Nat × JStr) :=
  if s.takeWhile isDigitC = [] then none
  else some (digitsVal (s.takeWhile isDigitC), s.dropWhile isDigitC)

/-- Parse one model object. -/
def parseModel (s : JStr) : Option (PoeModel × JStr) := do
  let s ← pLit (cs ("\x7b\"id\":\"")) s
  let (i, s) ← pQStr s
  let s ← pLit (cs (",\"name\":\"")) s
  let (n, s) ← pQStr s
  let s ← pLit (cs ("\x7d")) s
  some (⟨i, n⟩, s)

/-- Parse the elements of a models array after its opening bracket. -/
def parseModelsAux : Nat → JStr → Option (List PoeModel × JStr)
  | 0, _ => none
  | _ + 1, [] => none
  | fuel + 1, c :: s =>
    if c = ']' then some ([], s)
    else do
      let (m, s') ← parseModel (c :: s)
      match s' with
      | ',' :: r => do
        let (ms, r') ← parseModelsAux fuel r
        if ms = [] then none else some (m :: ms, r')
      | ']' :: r => some ([m], r)
      | _ => none

/-- Parse a models array. -/
def parseModels (s : JStr) : Option (List PoeModel × JStr) :=
  match s with
  | '[' :: r => parseModelsAux (r.length + 1) r
  | _ => none

/-- Model of the platform `JSON.parse` restricted to the session-payload
shape produced by `createSessionToken` (`none` where `JSON.parse` throws
or yields anything but that shape). -/
def parsePayload (s : JStr) : Option PoeSessionUser := do
  let s ← pLit (cs ("\x7b\"userHash\":\"")) s
  let (u, s) ← pQStr s
  let s ← pLit (cs (",\"keyLast4\":\"")) s
  let (k, s) ← pQStr s
  let s ← pLit (cs (",\"models\":")) s
  let (ms, s) ← parseModels s
  let s ← pLit (cs (",\"createdAt\":")) s
  let (t, s) ← pDigits s
  let s ← pLit (cs ("\x7d")) s
  if s = [] then some ⟨u, k, ms, t⟩ else none

/-! ## Session tokens (`src/auth/session.ts`) -/

/-- Session TTL: 24 hours in milliseconds (`SESSION_MAX_AGE_MS`). -/
def SESSION_MAX_AGE_MS : Nat := 24 * 60 * 60 * 1000

/-- Code points of a JS string, the byte view `btoa` takes of its Latin-1
input (the source applies it to JSON text; faithful when every character
is below 256, which the theorems' hypotheses guarantee). -/
def charBytes (s : JStr) : Bytes := s.map Char.toNat

/-- Model of `createSessionToken`: base64 JSON payload, a dot, and the
base64 HMAC-SHA256 signature of the payload segment. -/
def createSessionToken (payload : PoeSessionUser) (secret : JStr) : JStr :=
  let payloadB64 := btoaBytes (charBytes (encodePayload payload))
  let sig := hmacSha256 (utf8Encode secret) (utf8Encode payloadB64)
  payloadB64 ++ '.' :: btoaBytes sig

/-- Model of `token.split('.')` — JS `String.split` with a one-character
separator keeps empty segments. -/
def splitDot : JStr → List JStr
  | [] => [[]]
  | c :: rest =>
    if c = '.' then [] :: splitDot rest
    else
      match splitDot rest with
      | h :: t => (c :: h) :: t
      | [] => [[c]]

/-- Model of `verifySessionToken`: split at the dot, base64-decode the
signature, compare against the recomputed HMAC, `JSON.parse` the payload,
and reject tokens older than the TTL.  Every throwing path of the source
(bad base64, bad JSON) is `none`, as the source catches all exceptions. -/
def verifySessionToken (token secret : JStr) (now : Nat) : Option PoeSessionUser :=
  match splitDot token with
  | payloadB64 :: sigB64 :: _ =>
    if payloadB64 = [] ∨ sigB64 = [] then none
    else
      match atobBytes sigB64 with
      | none => none
      | some sig =>
        if sig = hmacSha256 (utf8Encode secret) (utf8Encode payloadB64) then
          match atobBytes payloadB64 with
          | none => none
          | some pbytes =>
            match parsePayload (pbytes.map Char.ofNat) with
            | none => none
            | some p => if now - p.createdAt > SESSION_MAX_AGE_MS then none else some p
        else none
  | _ => none

/-- The cookie-name literal inside the extraction regex. -/
def sessionCookieLit : JStr := cs ("poeclaw_session=")

/-- Leftmost match of the regex `poeclaw_session=([^;]+)`: at each
position, if the literal matches and at least one non-semicolon character
follows, capture the maximal run; otherwise resume the scan one character
later (regex backtracking). -/
def extractScan : JStr → Option JStr
  | [] => none
  | c :: rest =>
    if sessionCookieLit.isPrefixOf (c :: rest) then
      match ((c :: rest).drop sessionCookieLit.length).takeWhile (fun ch => ch ≠ ';') with
      | [] => extractScan rest
      | v => some v
    else extractScan rest

/-- Model of `extractSessionToken`: `cookieHeader.match(/poeclaw_session=([^;]+)/)`,
with `null`/absent header giving `null`. -/
def extractSessionToken : Option JStr → Option JStr
  | none => none
  | some header => extractScan header

/-! ## API-key encryption (`src/auth/session.ts`, AES-GCM)

`crypto.subtle`'s AES-GCM is an external platform primitive, modelled at
its interface: `AesKeystream` produces the CTR keystream for a key, IV and
length, and `AesTag` the 16-byte authentication tag for a key, IV and
ciphertext body.  Encryption XORs the plaintext with the keystream and
appends the tag; decryption recomputes and checks the tag, then XORs.
Every theorem below quantifies over these parameters (constrained only by
the interface contract stated in its hypotheses), so it holds for the real
AES-GCM in particular. -/

/-- Interface of the AES-GCM/CTR keystream: key bytes, IV, length. -/
abbrev AesKeystream : Type := Bytes → Bytes → Nat → Bytes

/-- Interface of the AES-GCM authentication tag: key bytes, IV, ciphertext body. -/
abbrev AesTag : Type := Bytes → Bytes → Bytes → Bytes

/-- Key derivation in `encryptApiKey`/`decryptApiKey`:
`secret.padEnd(32, '0').slice(0, 32)`. -/
def deriveAesKeyStr (secret : JStr) : JStr :=
  (secret ++ List.replicate (32 - secret.length) '0').take 32

/-- Byte-wise XOR of two lists. -/
def xorBytes (a b : Bytes) : Bytes := List.zipWith (fun x y => x ^^^ y) a b

/-- Model of `encryptApiKey`: AES-GCM encrypt the UTF-8 plaintext under
the derived key with the given 12-byte IV, and base64 the IV-prefixed
blob.  The IV — random in the source — is an explicit argument. -/
def encryptApiKey (ks : AesKeystream) (tag : AesTag) (apiKey secret : JStr) (iv : Bytes) : JStr :=
  let keyData := utf8Encode (deriveAesKeyStr secret)
  let pt := utf8Encode apiKey
  let body := xorBytes pt (ks keyData iv pt.length)
  btoaBytes (iv ++ body ++ tag keyData iv body)

/-- Model of `decryptApiKey`: base64-decode, split off the 12-byte IV,
check the trailing 16-byte tag (AES-GCM authentication — wrong tag throws
`OperationError`, here `none`), then XOR the body back to the plaintext. -/
def decryptApiKey (ks : AesKeystream) (tag : AesTag) (encrypted secret : JStr) : Option JStr :=
  let keyData := utf8Encode (deriveAesKeyStr secret)
  match atobBytes encrypted with
  | none => none
  | some combined =>
    let iv := combined.take 12
    let data := combined.drop 12
    if data.length < 16 then none
    else
      let body := data.take (data.length - 16)
      if data.drop (data.length - 16) = tag keyData iv body then
        some (utf8Decode (xorBytes body (ks keyData iv body.length)))
      else none

/-! ## Login rate limiter and handler statuses (`src/routes/auth.ts`) -/

/-- One entry of the in-memory rate-limit map. -/
structure RateEntry where
  count : Nat
  resetAt : Nat
  deriving Repr, DecidableEq

/-- The `loginAttempts` map, modelled as an association list keyed by IP. -/
abbrev RateState : Type := List (JStr × RateEntry)

/-- Map lookup (`loginAttempts.get`). -/
def rlGet : RateState → JStr → Option RateEntry
  | [], _ => none
  | e :: rest, ip => if e.1 = ip then some e.2 else rlGet rest ip

/-- Map update (`loginAttempts.set`, and the in-place `entry.count++`). -/
def rlSet : RateState → JStr → RateEntry → RateState
  | [], ip, v => [(ip, v)]
  | e :: rest, ip, v => if e.1 = ip then (ip, v) :: rest else e :: rlSet rest ip v

def MAX_ATTEMPTS : Nat := 10

def WINDOW_MS : Nat := 60000

/-- Model of `checkRateLimit`: first attempt or elapsed window resets the
entry to count 1; at `MAX_ATTEMPTS` the attempt is refused without
touching the entry; otherwise the count is incremented. -/
def checkRateLimit (st : RateState) (ip : JStr) (now : Nat) : Bool × RateState :=
  match rlGet st ip with
  | none => (true, rlSet st ip ⟨1, now + WINDOW_MS⟩)
  | some entry =>
    if now > entry.resetAt then (true, rlSet st ip ⟨1, now + WINDOW_MS⟩)
    else if entry.count ≥ MAX_ATTEMPTS then (false, st)
    else (true, rlSet st ip ⟨entry.count + 1, entry.resetAt⟩)

/-- The request-dependent inputs of one login attempt: the (trimmed)
`apiKey` from the body, the upstream validation verdict, and whether both
server secrets are configured. -/
structure LoginAttempt where
  apiKey : Option JStr
  valid : Bool
  hasSecrets : Bool
  deriving Repr, DecidableEq

/-- The status a login attempt gets on its own merits, rate limiting
aside: 400 missing key, 401 invalid key, 500 missing secrets, 200 ok. -/
def loginMeritStatus (req : LoginAttempt) : Nat :=
  match req.apiKey with
  | none => 400
  | some k =>
    if k = [] then 400
    else if !req.valid then 401
    else if !req.hasSecrets then 500
    else 200

/-- Model of the `POST /api/auth/login` status pipeline: the rate-limit
check runs first and refusal yields 429 before the body is even read. -/
def loginStatus (st : RateState) (ip : JStr) (now : Nat) (req : LoginAttempt) :
    Nat × RateState :=
  let (ok, st') := checkRateLimit st ip now
  if !ok then (429, st') else (loginMeritStatus req, st')

/-- Run a sequence of login attempts from one IP, collecting statuses. -/
def runLogin (st : RateState) (ip : JStr) : List (Nat × LoginAttempt) → List Nat × RateState
  | [] => ([], st)
  | (now, req) :: rest =>
    let (code, st') := loginStatus st ip now req
    let (codes, st'') := runLogin st' ip rest
    (code :: codes, st'')

/-! ## The `/api/auth/me` handler and the session middleware -/

/-- The environment bindings the modelled handlers read. -/
structure GatewayEnv where
  SESSION_SECRET : Option JStr
  DEV_MODE : Option JStr
  deriving Repr, DecidableEq

/-- The JSON response of `GET /api/auth/me`. -/
structure MeResponse where
  status : Nat
  authenticated : Bool
  userHash : Option JStr
  keyLast4 : Option JStr
  models : Option (List PoeModel)
  deriving Repr, DecidableEq

/-- Model of the `GET /api/auth/me` handler: 401 `authenticated:false`
without a configured secret, an extractable cookie token and a verifying
token; otherwise 200 with the session's own data.  The handler reads
nothing else of the environment — in particular not `DEV_MODE`. -/
def meHandler (env : GatewayEnv) (cookieHeader : Option JStr) (now : Nat) : MeResponse :=
  match env.SESSION_SECRET with
  | none => ⟨401, false, none, none, none⟩
  | some secret =>
    match extractSessionToken cookieHeader with
    | none => ⟨401, false, none, none, none⟩
    | some token =>
      match verifySessionToken token secret now with
      | none => ⟨401, false, none, none, none⟩
      | some u => ⟨200, true, some u.userHash, some u.keyLast4, some u.models⟩

/-- Outcome of the session middleware: proceed to the protected routes
with a resolved sandbox id, or respond directly. -/
inductive MWOutcome where
  | next (sandboxId : JStr) (poeUser : Option PoeSessionUser)
  | json (status : Nat) (body : JStr)
  | spaShell
  | text (status : Nat) (body : JStr)
  deriving Repr, DecidableEq

/-- Serving the SPA shell via `ASSETS.fetch`, with its catch branch. -/
def spaResponse (assetsOk : Bool) : MWOutcome :=
  if assetsOk then .spaShell else .text 500 (cs ("SPA not available. Run: make build"))

/-- Model of the session middleware in `src/index.ts`: dev-mode bypass to
a fixed sandbox; 500 without a secret; for a missing token the SPA shell
(HTML) or a 401 with a login hint (API); for a failing token the SPA
shell or a 401 "Session expired or invalid"; on success the per-user
sandbox. -/
def sessionMiddleware (env : GatewayEnv) (assetsOk : Bool) (cookieHeader : Option JStr)
    (acceptsHtml : Bool) (now : Nat) : MWOutcome :=
  if env.DEV_MODE = some (cs ("true")) then .next (cs ("dev-user")) none
  else
    match env.SESSION_SECRET with
    | none => .json 500 (cs ("\x7b\"error\":\"Server not configured (missing SESSION_SECRET)\"\x7d"))
    | some secret =>
      match extractSessionToken cookieHeader with
      | none =>
        if acceptsHtml then spaResponse assetsOk
        else .json 401 (cs ("\x7b\"error\":\"Authentication required\",\"hint\":\"POST /api/auth/login\"\x7d"))
      | some token =>
        match verifySessionToken token secret now with
        | none =>
          if acceptsHtml then spaResponse assetsOk
          else .json 401 (cs ("\x7b\"error\":\"Session expired or invalid\"\x7d"))
        | some u => .next u.userHash (some u)

/-! ## WebSocket close-code sanitizing (`src/index.ts`) -/

/-- Model of `safeCloseCode`: map the reserved codes 1005 and 1006 to 1011. -/
def safeCloseCode (code : Nat) : Nat :=
  if code = 1005 ∨ code = 1006 then 1011 else code

/-- Substring test, as JS `String.includes`. -/
def containsSub (needle : JStr) : JStr → Bool
  | [] => decide (needle = [])
  | c :: rest => needle.isPrefixOf (c :: rest) || containsSub needle rest

/-- Model of `transformErrorMessage`: substring-driven rewriting of known
gateway error texts. -/
def transformErrorMessage (message host : JStr) : JStr :=
  if containsSub (cs ("gateway token missing")) message ∨
      containsSub (cs ("gateway token mismatch")) message then
    cs ("Invalid or missing token. Visit https://") ++ host ++ cs ("?token=\x7bREPLACE_WITH_YOUR_TOKEN\x7d")
  else if containsSub (cs ("pairing required")) message then
    cs ("Pairing required. Visit https://") ++ host ++ cs ("/_admin/")
  else message

/-- The close-relay handler for client-side close events: forward the
sanitized code and the reason verbatim to the container socket. -/
def relayClientClose (code : Nat) (reason : JStr) : Nat × JStr :=
  (safeCloseCode code, reason)

/-- The close-relay handler for container-side close events: rewrite the
reason, truncate it to the 123-byte close-reason limit, and forward the
sanitized code to the client socket. -/
def relayContainerClose (code : Nat) (reason host : JStr) : Nat × JStr :=
  let r := transformErrorMessage reason host
  (safeCloseCode code, if r.length > 123 then r.take 120 ++ cs ("...") else r)

/-- Close codes an endpoint must never put in a Close frame (RFC 6455
§7.4.1: 1005, 1006 and 1015 "MUST NOT be set as a status code in a Close
control frame by an endpoint"). -/
def rfc6455NonTransmittable (code : Nat) : Bool :=
  code = 1005 || code = 1006 || code = 1015

/-- Decidable check that no position strictly inside `pre` begins an
occurrence of the cookie-name literal in `pre ++ rest` (used to pin down
where the extraction regex first matches). -/
def noLitBefore : JStr → JStr → Bool
  | [], _ => true
  | c :: p, rest => !sessionCookieLit.isPrefixOf (c :: p ++ rest) && noLitBefore p rest

/-- The shell command the login handler runs to store the encrypted key
(`src/routes/auth.ts`): the blob is spliced into single quotes. -/
def loginKeyWriteCommand (blob : JStr) : JStr :=
  cs ("mkdir -p /tmp/poeclaw && echo \x27") ++ blob ++ cs ("\x27 > /tmp/poeclaw/encrypted-key")

/-- A concrete keystream satisfying the AES interface contract, used only
to instantiate witnesses and counterexamples of the interface-quantified
theorems. -/
def ksDemo : AesKeystream := fun key iv n =>
  (List.range n).map (fun i => (key.sum + iv.sum + i) % 256)

/-- A concrete key-dependent tag function satisfying the AES interface
contract, for witnesses and counterexamples. -/
def tagDemo : AesTag := fun key iv ct =>
  (List.range 16).map (fun i => (3 * key.sum + iv.sum + ct.sum + i) % 256)

/-- A fixed 12-byte IV for witnesses. -/
def ivDemo : Bytes := [1, 2, 3, 4, 5, 6, 7, 8, 9, 10, 11, 12]

/-- A login attempt with a valid key and configured secrets (merit 200). -/
def attOk : LoginAttempt := ⟨some (cs ("pb-0123456789")), true, true⟩

/-- A login attempt whose key the upstream validator rejects (merit 401). -/
def attBad : LoginAttempt := ⟨some (cs ("pb-invalid-key")), false, true⟩

/-! ## Lemmas: characters and base64 round trip -/

theorem charToNat_ofNat_valid (n : Nat) (h : n.isValidChar) : (Char.ofNat n).toNat = n := by
  simp [Char.ofNat, dif_pos h, Char.toNat, Char.ofNatAux, UInt32.toNat, UInt32.ofNat']

theorem charToNat_ofNat_byte (n : Nat) (h : n < 55296) : (Char.ofNat n).toNat = n :=
  charToNat_ofNat_valid n (Or.inl h)

theorem char_toNat_lt (c : Char) : c.toNat < 1114112 := by
  rcases c.valid with h | h
  · exact Nat.lt_trans h (by norm_num)
  · exact h.2

theorem b64Index_b64Char : ∀ n, n < 64 → b64Index (b64Char n) = some n := by decide

theorem b64Char_not_ws : ∀ n, n < 64 → isB64Ws (b64Char n) = false := by decide

theorem b64Char_ne_pad : ∀ n, n < 64 → b64Char n ≠ '=' := by decide

theorem b64Char_ne_dot : ∀ n, n < 64 → b64Char n ≠ '.' := by decide

theorem b64Char_ascii : ∀ n, n < 64 → (b64Char n).toNat < 128 := by decide

theorem pad_not_ws : isB64Ws '=' = false := by decide

theorem b64Groups_lt : ∀ bs : Bytes, (∀ b ∈ bs, b < 256) → ∀ i ∈ b64Groups bs, i < 64
  | [], _ => by simp [b64Groups]
  | [a], h => by
    have ha := h a (by simp)
    simp only [b64Groups, List.mem_cons, List.not_mem_nil, or_false]
    rintro i (rfl | rfl) <;> omega
  | [a, b], h => by
    have ha := h a (by simp)
    have hb := h b (by simp)
    simp only [b64Groups, List.mem_cons, List.not_mem_nil, or_false]
    rintro i (rfl | rfl | rfl) <;> omega
  | a :: b :: c :: rest, h => by
    have ha := h a (by simp)
    have hb := h b (by simp)
    have hc := h c (by simp)
    have ih := b64Groups_lt rest (fun x hx => h x (by simp [hx]))
    simp only [b64Groups, List.cons_append, List.nil_append, List.mem_cons]
    rintro i (rfl | rfl | rfl | rfl | hi)
    · omega
    · omega
    · omega
    · omega
    · exact ih i hi

theorem b64Decode4_groups : ∀ bs : Bytes, (∀ b ∈ bs, b < 256) → b64Decode4 (b64Groups bs) = bs
  | [], _ => rfl
  | [a], h => by
    have ha := h a (by simp)
    simp only [b64Groups, b64Decode4, List.cons.injEq, and_true]
    omega
  | [a, b], h => by
    have ha := h a (by simp)
    have hb := h b (by simp)
    simp only [b64Groups, b64Decode4, List.cons.injEq, and_true]
    omega
  | a :: b :: c :: rest, h => by
    have ha := h a (by simp)
    have hb := h b (by simp)
    have hc := h c (by simp)
    have ih := b64Decode4_groups rest (fun x hx => h x (by simp [hx]))
    simp only [b64Groups, List.cons_append, List.nil_append, b64Decode4, ih, List.cons.injEq]
    refine ⟨by omega, by omega, by omega, by simp [ih]⟩

theorem b64Groups_length : ∀ bs : Bytes,
    (b64Groups bs).length = bs.length / 3 * 4 + (if bs.length % 3 = 0 then 0 else bs.length % 3 + 1)
  | [] => by simp [b64Groups]
  | [a] => by simp [b64Groups]
  | [a, b] => by simp [b64Groups]
  | a :: b :: c :: rest => by
    have ih := b64Groups_length rest
    simp only [b64Groups, List.length_append, List.length_cons, ih, List.length_nil]
    have h3 : (rest.length + 1 + 1 + 1) % 3 = rest.length % 3 := by omega
    rw [h3]
    split_ifs <;> omega

theorem b64Indices_map_b64Char : ∀ idxs : List Nat, (∀ i ∈ idxs, i < 64) →
    b64Indices (idxs.map b64Char) = some idxs
  | [], _ => rfl
  | i :: rest, h => by
    have hi := h i (by simp)
    have ih := b64Indices_map_b64Char rest (fun x hx => h x (by simp [hx]))
    simp only [List.map_cons, b64Indices, b64Index_b64Char i hi, ih]

theorem b64StripPad_no_pad (m : JStr) (h : ∀ c ∈ m, c ≠ '=') : b64StripPad m = m := by
  unfold b64StripPad
  rw [if_neg]
  intro hl
  exact h '=' (List.mem_of_mem_getLast? (by simp [hl])) rfl

theorem b64StripPad_one (m : JStr) (h : ∀ c ∈ m, c ≠ '=') : b64StripPad (m ++ ['=']) = m := by
  have hm : m.getLast? ≠ some '=' := fun hl =>
    h '=' (List.mem_of_mem_getLast? (by simp [hl])) rfl
  unfold b64StripPad
  rw [List.dropLast_concat, if_pos (by simp), if_neg hm]

theorem b64StripPad_two (m : JStr) : b64StripPad (m ++ ['=', '=']) = m := by
  have h2 : m ++ ['=', '='] = (m ++ ['=']) ++ ['='] := by simp
  unfold b64StripPad
  rw [h2, List.dropLast_concat, if_pos (by simp), List.dropLast_concat, if_pos (by simp)]

theorem mem_btoaBytes (bs : Bytes) (h : ∀ b ∈ bs, b < 256) :
    ∀ c ∈ btoaBytes bs, (∃ i, i < 64 ∧ c = b64Char i) ∨ c = '=' := by
  intro c hc
  rcases List.mem_append.mp hc with hm | hp
  · rcases List.mem_map.mp hm with ⟨i, hi, rfl⟩
    exact Or.inl ⟨i, b64Groups_lt bs h i hi, rfl⟩
  · exact Or.inr (List.eq_of_mem_replicate hp)

theorem btoaBytes_filter_ws (bs : Bytes) (h : ∀ b ∈ bs, b < 256) :
    (btoaBytes bs).filter (fun c => !isB64Ws c) = btoaBytes bs := by
  rw [List.filter_eq_self]
  intro c hc
  rcases mem_btoaBytes bs h c hc with ⟨i, hi, rfl⟩ | rfl
  · simp [b64Char_not_ws i hi]
  · simp [pad_not_ws]

theorem btoaBytes_length_mod4 (bs : Bytes) : (btoaBytes bs).length % 4 = 0 := by
  unfold btoaBytes b64PadLen
  rw [List.length_append, List.length_map, List.length_replicate, b64Groups_length]
  split_ifs <;> omega

/-- Forgiving-base64 inverts `btoa` on byte lists. -/
theorem atob_btoa (bs : Bytes) (h : ∀ b ∈ bs, b < 256) :
    atobBytes (btoaBytes bs) = some bs := by
  have hlt := b64Groups_lt bs h
  have hnopad : ∀ c ∈ (b64Groups bs).map b64Char, c ≠ '=' := by
    intro c hc
    rcases List.mem_map.mp hc with ⟨i, hi, rfl⟩
    exact b64Char_ne_pad i (hlt i hi)
  have hstrip : b64StripPad (btoaBytes bs) = (b64Groups bs).map b64Char := by
    unfold btoaBytes b64PadLen
    split_ifs with h1 h2
    · have : List.replicate 2 '=' = ['='] ++ ['='] := by simp
      rw [this, ← List.append_assoc]
      have h2' : ((b64Groups bs).map b64Char ++ ['=']) ++ ['='] =
          (b64Groups bs).map b64Char ++ ['=', '='] := by simp
      rw [h2', b64StripPad_two]
    · have : List.replicate 1 '=' = ['='] := by simp
      rw [this, b64StripPad_one _ hnopad]
    · simp only [List.replicate_zero, List.append_nil]
      exact b64StripPad_no_pad _ hnopad
  have hbodylen : ((b64Groups bs).map b64Char).length % 4 ≠ 1 := by
    rw [List.length_map, b64Groups_length]
    split_ifs <;> omega
  simp only [atobBytes, btoaBytes_filter_ws bs h]
  rw [if_pos (btoaBytes_length_mod4 bs), hstrip, if_neg hbodylen,
    b64Indices_map_b64Char _ hlt]
  simp [b64Decode4_groups bs h]


/-! ## Lemmas: UTF-8 round trip -/

theorem utf8Step_encChar (c : Char) (r : Bytes) :
    ∃ b1 t, utf8Char c = b1 :: t ∧ utf8Step b1 (t ++ r) = (c, r) := by
  have hc := char_toNat_lt c
  unfold utf8Char
  by_cases h1 : c.toNat < 0x80
  · refine ⟨c.toNat, [], by rw [if_pos h1], ?_⟩
    unfold utf8Step
    rw [if_pos h1, Char.ofNat_toNat]
    rfl
  · by_cases h2 : c.toNat < 0x800
    · refine ⟨0xC0 + c.toNat / 64, [0x80 + c.toNat % 64], by rw [if_neg h1, if_pos h2], ?_⟩
      unfold utf8Step
      rw [if_neg (by omega), if_neg (by omega), if_pos (by omega)]
      show (if 0x80 ≤ 0x80 + c.toNat % 64 ∧ 0x80 + c.toNat % 64 < 0xC0 then
          Char.ofNat ((0xC0 + c.toNat / 64 - 0xC0) * 64 + (0x80 + c.toNat % 64 - 0x80))
        else replChar, r) = (c, r)
      rw [if_pos ⟨by omega, by omega⟩]
      have harg : (0xC0 + c.toNat / 64 - 0xC0) * 64 + (0x80 + c.toNat % 64 - 0x80) = c.toNat := by
        omega
      rw [harg, Char.ofNat_toNat]
    · by_cases h3 : c.toNat < 0x10000
      · refine ⟨0xE0 + c.toNat / 4096, [0x80 + c.toNat / 64 % 64, 0x80 + c.toNat % 64],
          by rw [if_neg h1, if_neg h2, if_pos h3], ?_⟩
        unfold utf8Step
        rw [if_neg (by omega), if_neg (by omega), if_neg (by omega), if_pos (by omega)]
        show (if (0x80 ≤ 0x80 + c.toNat / 64 % 64 ∧ 0x80 + c.toNat / 64 % 64 < 0xC0) ∧
            (0x80 ≤ 0x80 + c.toNat % 64 ∧ 0x80 + c.toNat % 64 < 0xC0) then
            Char.ofNat ((0xE0 + c.toNat / 4096 - 0xE0) * 4096 +
              (0x80 + c.toNat / 64 % 64 - 0x80) * 64 + (0x80 + c.toNat % 64 - 0x80))
          else replChar, r) = (c, r)
        rw [if_pos ⟨⟨by omega, by omega⟩, by omega, by omega⟩]
        have harg : (0xE0 + c.toNat / 4096 - 0xE0) * 4096 +
            (0x80 + c.toNat / 64 % 64 - 0x80) * 64 + (0x80 + c.toNat % 64 - 0x80) = c.toNat := by
          omega
        rw [harg, Char.ofNat_toNat]
      · refine ⟨0xF0 + c.toNat / 262144,
          [0x80 + c.toNat / 4096 % 64, 0x80 + c.toNat / 64 % 64, 0x80 + c.toNat % 64],
          by rw [if_neg h1, if_neg h2, if_neg h3], ?_⟩
        unfold utf8Step
        rw [if_neg (by omega), if_neg (by omega), if_neg (by omega), if_neg (by omega)]
        show (if ((0x80 ≤ 0x80 + c.toNat / 4096 % 64 ∧ 0x80 + c.toNat / 4096 % 64 < 0xC0) ∧
            (0x80 ≤ 0x80 + c.toNat / 64 % 64 ∧ 0x80 + c.toNat / 64 % 64 < 0xC0)) ∧
            (0x80 ≤ 0x80 + c.toNat % 64 ∧ 0x80 + c.toNat % 64 < 0xC0) then
            Char.ofNat ((0xF0 + c.toNat / 262144 - 0xF0) * 262144 +
              (0x80 + c.toNat / 4096 % 64 - 0x80) * 4096 +
              (0x80 + c.toNat / 64 % 64 - 0x80) * 64 + (0x80 + c.toNat % 64 - 0x80))
          else replChar, r) = (c, r)
        rw [if_pos ⟨⟨⟨by omega, by omega⟩, by omega, by omega⟩, by omega, by omega⟩]
        have harg : (0xF0 + c.toNat / 262144 - 0xF0) * 262144 +
            (0x80 + c.toNat / 4096 % 64 - 0x80) * 4096 +
            (0x80 + c.toNat / 64 % 64 - 0x80) * 64 + (0x80 + c.toNat % 64 - 0x80) = c.toNat := by
          omega
        rw [harg, Char.ofNat_toNat]

theorem utf8DecodeAux_encode : ∀ (s : JStr) (fuel : Nat),
    (utf8Encode s).length ≤ fuel → utf8DecodeAux fuel (utf8Encode s) = s
  | [], fuel, _ => by cases fuel <;> rfl
  | c :: s, fuel, hf => by
    obtain ⟨b1, t, hct, hstep⟩ := utf8Step_encChar c (utf8Encode s)
    have henc : utf8Encode (c :: s) = b1 :: (t ++ utf8Encode s) := by
      show utf8Char c ++ utf8Encode s = _
      rw [hct]
      simp
    have hlen : (utf8Encode (c :: s)).length = 1 + t.length + (utf8Encode s).length := by
      rw [henc]
      simp
      omega
    rcases fuel with _ | fuel
    · omega
    · rw [henc]
      show (utf8Step b1 (t ++ utf8Encode s)).1 ::
        utf8DecodeAux fuel (utf8Step b1 (t ++ utf8Encode s)).2 = c :: s
      rw [hstep]
      exact congrArg (c :: ·) (utf8DecodeAux_encode s fuel (by omega))

/-- The platform text codec round trip: decoding the UTF-8 encoding of any
string gives the string back. -/
theorem utf8_roundtrip (s : JStr) : utf8Decode (utf8Encode s) = s :=
  utf8DecodeAux_encode s (utf8Encode s).length (Nat.le_refl _)

/-! ## Lemmas: the JSON payload codec -/

/-- Characters `JSON.stringify` emits verbatim inside a string literal;
ASCII also keeps `btoa` (Latin-1) and `TextEncoder` (UTF-8) agreeing on
the payload bytes. -/
def jsonSafeChar (c : Char) : Bool :=
  decide (c ≠ '"') && decide (c ≠ '\\') && decide (32 ≤ c.toNat) && decide (c.toNat < 127)

def jsonSafeStr (s : JStr) : Bool := s.all jsonSafeChar

/-- Payloads whose strings JSON-round-trip verbatim. -/
def jsonSafePayload (p : PoeSessionUser) : Bool :=
  jsonSafeStr p.userHash && jsonSafeStr p.keyLast4 &&
    p.models.all (fun m => jsonSafeStr m.id && jsonSafeStr m.name)

theorem pLit_append (lit rest : JStr) : pLit lit (lit ++ rest) = some rest := by
  unfold pLit
  rw [if_pos (List.isPrefixOf_iff_prefix.mpr (List.prefix_append lit rest)), List.drop_left]

theorem takeWhile_boundary (p : Char → Bool) (d : Char) (r : JStr) :
    ∀ u : JStr, (∀ c ∈ u, p c = true) → p d = false →
      (u ++ d :: r).takeWhile p = u ∧ (u ++ d :: r).dropWhile p = d :: r
  | [], _, hd => by simp [List.takeWhile, List.dropWhile, hd]
  | c :: u, hu, hd => by
    have hc := hu c (by simp)
    have ih := takeWhile_boundary p d r u (fun x hx => hu x (by simp [hx])) hd
    simp only [List.cons_append, List.takeWhile_cons, List.dropWhile_cons, hc, ih.1, ih.2]
    simp

theorem pQStr_append (u rest : JStr) (hu : ∀ c ∈ u, c ≠ '"') :
    pQStr (u ++ '"' :: rest) = some (u, rest) := by
  have hb := takeWhile_boundary (fun c => c ≠ '"') '"' rest u
    (fun c hc => by simpa using hu c hc) (by simp)
  unfold pQStr
  rw [hb.2, hb.1]
  rfl

theorem digitsVal_append_digit (ds : JStr) (c : Char) :
    digitsVal (ds ++ [c]) = 10 * digitsVal ds + (c.toNat - 48) := by
  unfold digitsVal
  rw [List.foldl_append]
  simp [Nat.mul_comm]

theorem natCharsAux_spec : ∀ (fuel n : Nat), n < fuel →
    digitsVal (natCharsAux fuel n) = n ∧
      (∀ c ∈ natCharsAux fuel n, 48 ≤ c.toNat ∧ c.toNat ≤ 57) ∧ natCharsAux fuel n ≠ []
  | 0, n, h => by omega
  | fuel + 1, n, h => by
    unfold natCharsAux
    by_cases h10 : n < 10
    · rw [if_pos h10]
      have ht : (Char.ofNat (48 + n)).toNat = 48 + n := charToNat_ofNat_byte _ (by omega)
      refine ⟨by simp [digitsVal, ht], ?_, by simp⟩
      intro c hc
      simp only [List.mem_singleton] at hc
      subst hc
      omega
    · rw [if_neg h10]
      have ih := natCharsAux_spec fuel (n / 10) (by omega)
      have ht : (Char.ofNat (48 + n % 10)).toNat = 48 + n % 10 := charToNat_ofNat_byte _ (by omega)
      refine ⟨?_, ?_, by simp⟩
      · rw [digitsVal_append_digit, ih.1, ht]
        omega
      · intro c hc
        rcases List.mem_append.mp hc with hcc | hcc
        · exact ih.2.1 c hcc
        · simp only [List.mem_singleton] at hcc
          subst hcc
          omega

theorem natChars_spec (n : Nat) :
    digitsVal (natChars n) = n ∧ (∀ c ∈ natChars n, 48 ≤ c.toNat ∧ c.toNat ≤ 57) ∧
      natChars n ≠ [] :=
  natCharsAux_spec (n + 1) n (Nat.lt_succ_self n)

theorem pDigits_append (n : Nat) (d : Char) (r : JStr) (hd : isDigitC d = false) :
    pDigits (natChars n ++ d :: r) = some (n, d :: r) := by
  obtain ⟨hval, hdig, hne⟩ := natChars_spec n
  have hb := takeWhile_boundary isDigitC d r (natChars n)
    (fun c hc => by simp [isDigitC, (hdig c hc).1, (hdig c hc).2]) hd
  unfold pDigits
  rw [hb.1, hb.2, if_neg hne, hval]

theorem cs_rbrace_cons (rest : JStr) : '\x7d' :: rest = cs ("\x7d") ++ rest := rfl

theorem jsonSafeStr_no_quote (u : JStr) (h : jsonSafeStr u = true) : ∀ c ∈ u, c ≠ '"' := by
  intro c hc
  have := List.all_eq_true.mp h c hc
  simp only [jsonSafeChar, Bool.and_eq_true, decide_eq_true_eq] at this
  exact this.1.1.1

theorem parseModel_append (m : PoeModel) (rest : JStr)
    (hid : jsonSafeStr m.id = true) (hname : jsonSafeStr m.name = true) :
    parseModel (encodeModel m ++ rest) = some (m, rest) := by
  unfold parseModel encodeModel
  simp only [List.append_assoc, List.cons_append, List.nil_append]
  rw [pLit_append]
  simp only [bind, Option.bind]
  rw [pQStr_append _ _ (jsonSafeStr_no_quote _ hid)]
  simp only []
  rw [pLit_append]
  simp only []
  rw [pQStr_append _ _ (jsonSafeStr_no_quote _ hname)]
  simp only []
  rw [cs_rbrace_cons, pLit_append]

theorem parseModelsAux_append : ∀ (ms : List PoeModel) (fuel : Nat) (rest : JStr),
    (∀ m ∈ ms, jsonSafeStr m.id = true ∧ jsonSafeStr m.name = true) →
    (joinComma (ms.map encodeModel)).length < fuel →
    parseModelsAux fuel (joinComma (ms.map encodeModel) ++ ']' :: rest) = some (ms, rest)
  | [], fuel, rest, _, hf => by
    rcases fuel with _ | f
    · omega
    · rfl
  | [m], fuel, rest, hsafe, hf => by
    rcases fuel with _ | f
    · omega
    · have hm := hsafe m (by simp)
      show parseModelsAux (f + 1) (encodeModel m ++ ']' :: rest) = some ([m], rest)
      obtain ⟨t, ht⟩ : ∃ t, encodeModel m ++ ']' :: rest = '{' :: t := ⟨_, rfl⟩
      rw [ht]
      simp only [parseModelsAux]
      rw [if_neg (by decide), ← ht, parseModel_append m _ hm.1 hm.2]
      simp only [bind, Option.bind]
  | m :: m' :: ms, fuel, rest, hsafe, hf => by
    rcases fuel with _ | f
    · omega
    · have hm := hsafe m (by simp)
      have harr : joinComma ((m :: m' :: ms).map encodeModel) ++ ']' :: rest =
          encodeModel m ++ (',' :: (joinComma ((m' :: ms).map encodeModel) ++ ']' :: rest)) := by
        simp [joinComma]
      have hlen : (joinComma ((m :: m' :: ms).map encodeModel)).length =
          (encodeModel m).length + 1 + (joinComma ((m' :: ms).map encodeModel)).length := by
        simp [joinComma]
        omega
      have ih := parseModelsAux_append (m' :: ms) f rest
        (fun x hx => hsafe x (by simp [List.mem_cons] at hx ⊢; tauto)) (by omega)
      obtain ⟨t, ht⟩ : ∃ t, joinComma ((m :: m' :: ms).map encodeModel) ++ ']' :: rest =
          '{' :: t := ⟨_, rfl⟩
      rw [ht]
      simp only [parseModelsAux]
      rw [if_neg (by decide), ← ht, harr, parseModel_append m _ hm.1 hm.2]
      simp only [bind, Option.bind]
      rw [ih]
      simp only []
      rw [if_neg (by simp)]

theorem parseModels_append (ms : List PoeModel) (rest : JStr)
    (hsafe : ∀ m ∈ ms, jsonSafeStr m.id = true ∧ jsonSafeStr m.name = true) :
    parseModels (encodeModels ms ++ rest) = some (ms, rest) := by
  unfold parseModels encodeModels
  have harr : ('[' :: joinComma (ms.map encodeModel) ++ [']']) ++ rest =
      '[' :: (joinComma (ms.map encodeModel) ++ ']' :: rest) := by simp
  rw [harr]
  show parseModelsAux ((joinComma (ms.map encodeModel) ++ ']' :: rest).length + 1) _ = _
  exact parseModelsAux_append ms _ rest hsafe (by simp; omega)

theorem jsonSafePayload_parts (p : PoeSessionUser) (h : jsonSafePayload p = true) :
    jsonSafeStr p.userHash = true ∧ jsonSafeStr p.keyLast4 = true ∧
      ∀ m ∈ p.models, jsonSafeStr m.id = true ∧ jsonSafeStr m.name = true := by
  unfold jsonSafePayload at h
  simp only [Bool.and_eq_true, List.all_eq_true] at h
  exact ⟨h.1.1, h.1.2, fun m hm => by
    have := h.2 m hm
    simp only [Bool.and_eq_true] at this
    exact this⟩

/-- The platform JSON codec round trip on session payloads. -/
theorem parsePayload_encode (p : PoeSessionUser) (h : jsonSafePayload p = true) :
    parsePayload (encodePayload p) = some p := by
  obtain ⟨hu, hk, hms⟩ := jsonSafePayload_parts p h
  unfold parsePayload encodePayload
  simp only [List.append_assoc, List.cons_append, List.nil_append]
  rw [pLit_append]
  simp only [bind, Option.bind]
  rw [pQStr_append _ _ (jsonSafeStr_no_quote _ hu)]
  simp only []
  rw [pLit_append]
  simp only []
  rw [pQStr_append _ _ (jsonSafeStr_no_quote _ hk)]
  simp only []
  rw [pLit_append]
  simp only []
  rw [parseModels_append _ _ hms]
  simp only []
  rw [pLit_append]
  simp only []
  rw [pDigits_append _ _ _ (by decide)]
  simp only []
  rw [cs_rbrace_cons, pLit_append]
  simp only [if_true]

/-! ## Lemmas: byte hygiene of the token pieces -/

theorem jsonSafeStr_ascii (u : JStr) (h : jsonSafeStr u = true) : ∀ c ∈ u, c.toNat < 128 := by
  intro c hc
  have := List.all_eq_true.mp h c hc
  simp only [jsonSafeChar, Bool.and_eq_true, decide_eq_true_eq] at this
  omega

theorem natChars_ascii (n : Nat) : ∀ c ∈ natChars n, c.toNat < 128 := by
  intro c hc
  have := (natChars_spec n).2.1 c hc
  omega

theorem mem_joinComma : ∀ (ls : List JStr) (c : Char), c ∈ joinComma ls →
    c = ',' ∨ ∃ l ∈ ls, c ∈ l
  | [], c, hc => by simp [joinComma] at hc
  | [x], c, hc => by
    simp only [joinComma] at hc
    exact Or.inr ⟨x, by simp, hc⟩
  | x :: y :: t, c, hc => by
    simp only [joinComma, List.mem_append, List.mem_cons] at hc
    rcases hc with hx | rfl | hj
    · exact Or.inr ⟨x, by simp, hx⟩
    · exact Or.inl rfl
    · rcases mem_joinComma (y :: t) c hj with h | ⟨l, hl, hcl⟩
      · exact Or.inl h
      · exact Or.inr ⟨l, by simp [List.mem_cons] at hl ⊢; tauto, hcl⟩

theorem ascii_append {a b : JStr} (ha : ∀ c ∈ a, c.toNat < 128) (hb : ∀ c ∈ b, c.toNat < 128) :
    ∀ c ∈ a ++ b, c.toNat < 128 := by
  intro c hc
  rcases List.mem_append.mp hc with h | h
  · exact ha c h
  · exact hb c h

theorem ascii_cons {d : Char} {b : JStr} (hd : d.toNat < 128) (hb : ∀ c ∈ b, c.toNat < 128) :
    ∀ c ∈ d :: b, c.toNat < 128 := by
  intro c hc
  rcases List.mem_cons.mp hc with rfl | h
  · exact hd
  · exact hb c h

theorem encodeModel_ascii (m : PoeModel) (hid : jsonSafeStr m.id = true)
    (hname : jsonSafeStr m.name = true) : ∀ c ∈ encodeModel m, c.toNat < 128 :=
  ascii_append (by decide)
    (ascii_append (jsonSafeStr_ascii _ hid)
      (ascii_cons (by decide)
        (ascii_append (by decide)
          (ascii_append (jsonSafeStr_ascii _ hname) (ascii_cons (by decide) (by decide))))))

theorem encodeModels_ascii (ms : List PoeModel)
    (hms : ∀ m ∈ ms, jsonSafeStr m.id = true ∧ jsonSafeStr m.name = true) :
    ∀ c ∈ encodeModels ms, c.toNat < 128 := by
  unfold encodeModels
  refine ascii_cons (by decide) (ascii_append ?_ (by decide))
  intro c hc
  rcases mem_joinComma _ c hc with rfl | ⟨l, hl, hcl⟩
  · decide
  · rcases List.mem_map.mp hl with ⟨m, hm, rfl⟩
    exact encodeModel_ascii m (hms m hm).1 (hms m hm).2 c hcl

theorem encodePayload_ascii (p : PoeSessionUser) (h : jsonSafePayload p = true) :
    ∀ c ∈ encodePayload p, c.toNat < 128 := by
  obtain ⟨hu, hk, hms⟩ := jsonSafePayload_parts p h
  unfold encodePayload
  exact ascii_append (by decide)
    (ascii_append (jsonSafeStr_ascii _ hu)
      (ascii_cons (by decide)
        (ascii_append (by decide)
          (ascii_append (jsonSafeStr_ascii _ hk)
            (ascii_cons (by decide)
              (ascii_append (by decide)
                (ascii_append (encodeModels_ascii _ hms)
                  (ascii_append (by decide)
                    (ascii_append (natChars_ascii _) (by decide))))))))))

theorem charBytes_lt (s : JStr) (h : ∀ c ∈ s, c.toNat < 128) : ∀ b ∈ charBytes s, b < 256 := by
  intro b hb
  rcases List.mem_map.mp hb with ⟨c, hc, rfl⟩
  have := h c hc
  omega

theorem utf8Encode_ascii (s : JStr) (h : ∀ c ∈ s, c.toNat < 128) :
    utf8Encode s = charBytes s := by
  unfold utf8Encode charBytes
  induction s with
  | nil => rfl
  | cons c t ih =>
    have hc := h c (by simp)
    rw [List.flatMap_cons, List.map_cons, ih (fun x hx => h x (by simp [hx]))]
    unfold utf8Char
    rw [if_pos (by omega)]
    rfl

theorem map_ofNat_charBytes (s : JStr) : (charBytes s).map Char.ofNat = s := by
  unfold charBytes
  rw [List.map_map]
  simp [Function.comp_def, Char.ofNat_toNat]

theorem sha256_length (m : Bytes) : (sha256 m).length = 32 := by
  simp [sha256, shaDigest, be4]

theorem be4_lt (w : Nat) : ∀ b ∈ be4 w, b < 256 := by
  intro b hb
  simp only [be4, List.mem_cons, List.not_mem_nil, or_false] at hb
  rcases hb with rfl | rfl | rfl | rfl <;> exact Nat.mod_lt _ (by norm_num)

theorem sha256_lt (m : Bytes) : ∀ b ∈ sha256 m, b < 256 := by
  intro b hb
  simp only [sha256, shaDigest, List.mem_append] at hb
  rcases hb with ((((((h | h) | h) | h) | h) | h) | h) | h <;> exact be4_lt _ b h

theorem hmacSha256_length (k m : Bytes) : (hmacSha256 k m).length = 32 := sha256_length _

theorem hmacSha256_lt (k m : Bytes) : ∀ b ∈ hmacSha256 k m, b < 256 := sha256_lt _

theorem btoaBytes_ne_nil (bs : Bytes) (h : bs ≠ []) : btoaBytes bs ≠ [] := by
  intro hnil
  have hl := congrArg List.length hnil
  rw [btoaBytes, List.length_append, List.length_map, b64Groups_length] at hl
  simp only [List.length_nil, List.length_replicate] at hl
  have : bs.length ≠ 0 := fun h0 => h (List.eq_nil_of_length_eq_zero h0)
  split_ifs at hl <;> omega

theorem btoaBytes_no_dot (bs : Bytes) (h : ∀ b ∈ bs, b < 256) :
    ∀ c ∈ btoaBytes bs, c ≠ '.' := by
  intro c hc
  rcases mem_btoaBytes bs h c hc with ⟨i, hi, rfl⟩ | rfl
  · exact b64Char_ne_dot i hi
  · decide

theorem btoaBytes_ascii (bs : Bytes) (h : ∀ b ∈ bs, b < 256) :
    ∀ c ∈ btoaBytes bs, c.toNat < 128 := by
  intro c hc
  rcases mem_btoaBytes bs h c hc with ⟨i, hi, rfl⟩ | rfl
  · exact b64Char_ascii i hi
  · decide

/-! ## Lemmas: splitting the token at the dot -/

theorem splitDot_no_dot : ∀ s : JStr, (∀ c ∈ s, c ≠ '.') → splitDot s = [s]
  | [], _ => rfl
  | c :: t, h => by
    have hc := h c (by simp)
    have ih := splitDot_no_dot t (fun x hx => h x (by simp [hx]))
    simp only [splitDot]
    rw [if_neg hc, ih]

theorem splitDot_append : ∀ (a b : JStr), (∀ c ∈ a, c ≠ '.') →
    splitDot (a ++ '.' :: b) = a :: splitDot b
  | [], b, _ => by
    simp only [List.nil_append, splitDot, if_true]
  | c :: a, b, h => by
    have hc := h c (by simp)
    have ih := splitDot_append a b (fun x hx => h x (by simp [hx]))
    simp only [List.cons_append, splitDot, List.append_eq]
    rw [if_neg hc, ih]

/-! ## The session-token round trip -/

theorem encodePayload_ne_nil (p : PoeSessionUser) : encodePayload p ≠ [] := by
  unfold encodePayload
  intro h
  have := congrArg List.length h
  simp [cs] at this

/-- Verifying a freshly minted token under the same secret yields the
payload back, unless its embedded age exceeds the TTL. -/
theorem verify_create (p : PoeSessionUser) (secret : JStr) (now : Nat)
    (hp : jsonSafePayload p = true) :
    verifySessionToken (createSessionToken p secret) secret now =
      if now - p.createdAt > SESSION_MAX_AGE_MS then none else some p := by
  have hascii := encodePayload_ascii p hp
  have hpjb : ∀ b ∈ charBytes (encodePayload p), b < 256 := charBytes_lt _ hascii
  have hsigb : ∀ b ∈ hmacSha256 (utf8Encode secret)
      (utf8Encode (btoaBytes (charBytes (encodePayload p)))), b < 256 := hmacSha256_lt _ _
  have hpb_ne : btoaBytes (charBytes (encodePayload p)) ≠ [] := by
    apply btoaBytes_ne_nil
    intro hch
    exact encodePayload_ne_nil p (by simpa [charBytes] using hch)
  have hsb_ne : btoaBytes (hmacSha256 (utf8Encode secret)
      (utf8Encode (btoaBytes (charBytes (encodePayload p))))) ≠ [] := by
    apply btoaBytes_ne_nil
    intro hch
    have := congrArg List.length hch
    rw [hmacSha256_length] at this
    simp at this
  unfold createSessionToken verifySessionToken
  rw [splitDot_append _ _ (btoaBytes_no_dot _ hpjb),
    splitDot_no_dot _ (btoaBytes_no_dot _ hsigb)]
  simp only []
  rw [if_neg (by
    simp only [not_or]
    exact ⟨hpb_ne, hsb_ne⟩)]
  rw [atob_btoa _ hsigb]
  simp only []
  rw [if_pos trivial, atob_btoa _ hpjb]
  simp only []
  rw [map_ofNat_charBytes, parsePayload_encode p hp]

/-! ## Claim C7: WebSocket close-code sanitizing -/

/-- C7 counterexample: the claim says every reserved/non-transmittable
close code is replaced before transmission, but RFC 6455 also reserves
1015, which `safeCloseCode` passes through unchanged on both relay
directions. -/
theorem C7_counterexample :
    (relayClientClose 1015 []).1 = 1015 ∧ (relayContainerClose 1015 [] []).1 = 1015 ∧
      rfc6455NonTransmittable 1015 = true := by decide

/-- C7 (amended): both close-relay handlers transmit `safeCloseCode` of
the received code, which replaces exactly the codes 1005 and 1006 with
1011 and passes every other code — including the reserved code 1015 —
through unchanged; hence no relayed close ever carries 1005 or 1006, but
1015 is not sanitized. -/
theorem C7_close_code_sanitizing (code : Nat) (reason host : JStr) :
    (relayClientClose code reason).1 = safeCloseCode code ∧
      (relayContainerClose code reason host).1 = safeCloseCode code ∧
      safeCloseCode code ≠ 1005 ∧ safeCloseCode code ≠ 1006 ∧
      ((code = 1005 ∨ code = 1006) → safeCloseCode code = 1011) ∧
      (code ≠ 1005 ∧ code ≠ 1006 → safeCloseCode code = code) := by
  refine ⟨rfl, rfl, ?_, ?_, ?_, ?_⟩ <;> unfold safeCloseCode <;> split_ifs <;> omega

/-- C7 witness: the sanitizer at the reserved code 1006. -/
theorem C7_close_code_sanitizing_witness : safeCloseCode 1006 = 1011 :=
  (C7_close_code_sanitizing 1006 [] []).2.2.2.2.1 (Or.inr rfl)

/-! ## Claim C1: truthfulness of the `/api/auth/me` handler -/

/-- C1: the `/me` handler answers 200 `authenticated:true` with exactly
the verified session's own `userHash`, `keyLast4` and `models` precisely
when the configured secret verifies a token extracted from the cookie
header; in every other case (no secret, no cookie token, failing
verification) it answers 401 `authenticated:false` with no data — and
the response is independent of `DEV_MODE`, so no operating mode can make
it fabricate an identity. -/
theorem C1_me_truthful (env : GatewayEnv) (cookie : Option JStr) (now : Nat) :
    (∀ dev1 dev2 : Option JStr,
      meHandler ⟨env.SESSION_SECRET, dev1⟩ cookie now =
        meHandler ⟨env.SESSION_SECRET, dev2⟩ cookie now) ∧
    ((∃ s t u, env.SESSION_SECRET = some s ∧ extractSessionToken cookie = some t ∧
        verifySessionToken t s now = some u ∧
        meHandler env cookie now = ⟨200, true, some u.userHash, some u.keyLast4, some u.models⟩) ∨
      meHandler env cookie now = ⟨401, false, none, none, none⟩) ∧
    ((meHandler env cookie now).authenticated = true ↔
      ∃ s t u, env.SESSION_SECRET = some s ∧ extractSessionToken cookie = some t ∧
        verifySessionToken t s now = some u) := by
  refine ⟨fun dev1 dev2 => rfl, ?_⟩
  unfold meHandler
  cases hs : env.SESSION_SECRET with
  | none => exact ⟨Or.inr rfl, by simp⟩
  | some s =>
    simp only []
    cases ht : extractSessionToken cookie with
    | none => exact ⟨Or.inr rfl, by simp [ht]⟩
    | some t =>
      simp only []
      cases hv : verifySessionToken t s now with
      | none => exact ⟨Or.inr rfl, by simp [ht, hv]⟩
      | some u =>
        refine ⟨Or.inl ⟨s, t, u, rfl, rfl, hv, rfl⟩, ?_, fun _ => rfl⟩
        intro _
        exact ⟨s, t, u, rfl, rfl, hv⟩

/-! ## Claim C2: indistinguishability of session errors -/

/-- C2 counterexample: for a non-HTML request the middleware's response is
NOT identical for "no session cookie" and "invalid session cookie" — both
are 401s, but the bodies differ ("Authentication required" with a login
hint versus "Session expired or invalid"), so a client can tell absence
from invalidity.  The cookie used is present but carries a token that
fails verification. -/
theorem C2_counterexample :
    extractSessionToken (some (cs ("poeclaw_session=bad"))) = some (cs ("bad")) ∧
    verifySessionToken (cs ("bad")) (cs ("test-secret")) 0 = none ∧
    sessionMiddleware ⟨some (cs ("test-secret")), none⟩ true none false 0 ≠
      sessionMiddleware ⟨some (cs ("test-secret")), none⟩ true
        (some (cs ("poeclaw_session=bad"))) false 0 := by
  decide

/-- C2 (amended): with sessions enabled (no dev mode, secret configured),
all invalid-token session errors — bad signature, expired, malformed —
collapse to one response: any two failing tokens, at any two times,
produce identical middleware responses (the SPA shell for HTML requests, a
401 "Session expired or invalid" JSON for API requests), leaking nothing
about why a token is invalid.  For HTML requests this response is also
identical to the no-cookie response; for API requests both cases are 401s
but with different bodies, so only there absence is distinguishable from
invalidity. -/
theorem C2_session_error_collapse (env : GatewayEnv) (assetsOk : Bool) (s : JStr)
    (c1 c2 c0 : Option JStr) (t1 t2 : JStr) (now1 now2 now0 : Nat)
    (hdev : env.DEV_MODE ≠ some (cs ("true"))) (hs : env.SESSION_SECRET = some s)
    (h1 : extractSessionToken c1 = some t1) (hv1 : verifySessionToken t1 s now1 = none)
    (h2 : extractSessionToken c2 = some t2) (hv2 : verifySessionToken t2 s now2 = none)
    (h0 : extractSessionToken c0 = none) :
    (∀ acceptsHtml, sessionMiddleware env assetsOk c1 acceptsHtml now1 =
      sessionMiddleware env assetsOk c2 acceptsHtml now2) ∧
    sessionMiddleware env assetsOk c1 true now1 = sessionMiddleware env assetsOk c0 true now0 ∧
    sessionMiddleware env assetsOk c1 false now1 =
      .json 401 (cs ("\x7b\"error\":\"Session expired or invalid\"\x7d")) ∧
    sessionMiddleware env assetsOk c0 false now0 =
      .json 401 (cs ("\x7b\"error\":\"Authentication required\",\"hint\":\"POST /api/auth/login\"\x7d")) := by
  unfold sessionMiddleware
  simp only [if_neg hdev, hs, h0, h1, h2, hv1, hv2]
  refine ⟨fun _ => trivial, by simp, by simp, by simp⟩

/-- C2 witness: the collapse theorem applied to a malformed token and a
truncated-signature token at concrete times. -/
theorem C2_session_error_collapse_witness :
    sessionMiddleware ⟨some (cs ("test-secret")), none⟩ true
        (some (cs ("poeclaw_session=bad"))) false 5 =
      .json 401 (cs ("\x7b\"error\":\"Session expired or invalid\"\x7d")) :=
  (C2_session_error_collapse ⟨some (cs ("test-secret")), none⟩ true (cs ("test-secret"))
    (some (cs ("poeclaw_session=bad"))) (some (cs ("poeclaw_session=x.y"))) none
    (cs ("bad")) (cs ("x.y")) 5 7 0 (by decide) rfl (by decide) (by decide) (by decide)
    (by decide) (by decide)).2.2.1

/-! ## Claim C8: cookie extraction -/

/-- C8 counterexample: the extraction regex is unanchored, so a cookie
whose name merely has `poeclaw_session` as a suffix does match — the
claim requires `null` here — and when such a cookie precedes the real
one, its value wins over the exact-name cookie's value. -/
theorem C8_counterexample :
    extractSessionToken (some (cs ("evil_poeclaw_session=bad"))) = some (cs ("bad")) ∧
    extractSessionToken (some (cs ("evil_poeclaw_session=bad"))) ≠ none ∧
    extractSessionToken (some (cs ("xpoeclaw_session=a; poeclaw_session=b"))) =
      some (cs ("a")) := by
  decide

theorem takeWhile_no_stop (p : Char → Bool) : ∀ u : JStr, (∀ c ∈ u, p c = true) →
    u.takeWhile p = u
  | [], _ => rfl
  | c :: u, h => by
    simp only [List.takeWhile_cons, h c (by simp), takeWhile_no_stop p u
      (fun x hx => h x (by simp [hx])), if_true]

theorem extractScan_at (v suf : JStr)
    (hv : v ≠ []) (hvs : ∀ c ∈ v, c ≠ ';') (hsuf : suf = [] ∨ ∃ r, suf = ';' :: r) :
    ∀ pre : JStr, noLitBefore pre (sessionCookieLit ++ (v ++ suf)) = true →
      extractScan (pre ++ (sessionCookieLit ++ (v ++ suf))) = some v
  | [], _ => by
    rw [List.nil_append]
    obtain ⟨c0, t0, hlit⟩ : ∃ c0 t0, sessionCookieLit ++ (v ++ suf) = c0 :: t0 := ⟨_, _, rfl⟩
    rw [hlit]
    unfold extractScan
    rw [← hlit]
    rw [if_pos (List.isPrefixOf_iff_prefix.mpr (List.prefix_append _ _))]
    have hdrop : (sessionCookieLit ++ (v ++ suf)).drop sessionCookieLit.length = v ++ suf :=
      List.drop_left _ _
    rw [hdrop]
    have htw : (v ++ suf).takeWhile (fun ch => ch ≠ ';') = v := by
      rcases hsuf with rfl | ⟨r, rfl⟩
      · rw [List.append_nil]
        exact takeWhile_no_stop _ v (fun c hc => by simpa using hvs c hc)
      · exact (takeWhile_boundary (fun ch => ch ≠ ';') ';' r v
          (fun c hc => by simpa using hvs c hc) (by simp)).1
    rw [htw]
    cases hvc : v with
    | nil => exact absurd hvc hv
    | cons a l => rfl
  | c :: p, hpre => by
    have hpre' := hpre
    simp only [noLitBefore, Bool.and_eq_true, Bool.not_eq_true'] at hpre'
    rw [List.cons_append]
    unfold extractScan
    rw [if_neg (by
      have h1 := hpre'.1
      rw [List.cons_append] at h1
      simp [h1])]
    exact extractScan_at v suf hv hvs hsuf p hpre'.2
theorem extractScan_none : ∀ h : JStr, noLitBefore h [] = true → extractScan h = none
  | [], _ => rfl
  | c :: p, hh => by
    have hh' := hh
    simp only [noLitBefore, Bool.and_eq_true, Bool.not_eq_true'] at hh'
    unfold extractScan
    rw [if_neg (by
      have h1 := hh'.1
      rw [List.append_nil] at h1
      simp [h1])]
    exact extractScan_none p hh'.2

/-- C8 (amended): `extractSessionToken` returns the maximal run of
non-semicolon characters following the first occurrence of the substring
`poeclaw_session=` anywhere in the header — so it does return the named
cookie's value wherever it sits, provided no earlier position (such as a
cookie named `evil_poeclaw_session`) contains that substring — and it
returns null exactly when the substring never occurs with a nonempty
value; a cookie whose name merely ends in `poeclaw_session` is matched,
contrary to the claim. -/
theorem C8_extract_first_occurrence (pre v suf : JStr) (hv : v ≠ [])
    (hvs : ∀ c ∈ v, c ≠ ';') (hsuf : suf = [] ∨ ∃ r, suf = ';' :: r)
    (hpre : noLitBefore pre (sessionCookieLit ++ (v ++ suf)) = true) :
    extractSessionToken (some (pre ++ (sessionCookieLit ++ (v ++ suf)))) = some v ∧
      ∀ h : JStr, noLitBefore h [] = true → extractSessionToken (some h) = none := by
  constructor
  · exact extractScan_at v suf hv hvs hsuf pre hpre
  · intro h hh
    exact extractScan_none h hh

/-- C8 witness: a header with the session cookie in the middle. -/
theorem C8_extract_first_occurrence_witness :
    extractSessionToken (some (cs ("other=foo; ") ++ (sessionCookieLit ++
      (cs ("abc123") ++ cs ("; bar=baz"))))) = some (cs ("abc123")) :=
  (C8_extract_first_occurrence (cs ("other=foo; ")) (cs ("abc123")) (cs ("; bar=baz"))
    (by decide) (by decide) (Or.inr ⟨cs (" bar=baz"), by decide⟩) (by decide)).1

/-! ## Claims C3/C4/C10: API-key encryption -/

theorem utf8Char_lt (c : Char) : ∀ b ∈ utf8Char c, b < 256 := by
  have hc := char_toNat_lt c
  intro b hb
  simp only [utf8Char] at hb
  split_ifs at hb <;> simp only [List.mem_cons, List.not_mem_nil, or_false] at hb <;>
    rcases hb with rfl | rfl | rfl | rfl <;> omega

theorem utf8Encode_lt (s : JStr) : ∀ b ∈ utf8Encode s, b < 256 := by
  intro b hb
  rcases List.mem_flatMap.mp hb with ⟨c, _, hbc⟩
  exact utf8Char_lt c b hbc

theorem xorBytes_lt : ∀ a b : Bytes, (∀ x ∈ a, x < 256) → (∀ x ∈ b, x < 256) →
    ∀ x ∈ xorBytes a b, x < 256
  | [], _, _, _ => by simp [xorBytes]
  | _ :: _, [], _, _ => by simp [xorBytes]
  | x :: a, y :: b, ha, hb => by
    intro z hz
    simp only [xorBytes, List.zipWith_cons_cons, List.mem_cons] at hz
    rcases hz with rfl | hz
    · have h256 : (256 : Nat) = 2 ^ 8 := by norm_num
      rw [h256]
      exact Nat.xor_lt_two_pow (by rw [← h256]; exact ha x (by simp))
        (by rw [← h256]; exact hb y (by simp))
    · exact xorBytes_lt a b (fun t ht => ha t (by simp [ht])) (fun t ht => hb t (by simp [ht]))
        z hz

theorem xorBytes_length (a b : Bytes) : (xorBytes a b).length = min a.length b.length :=
  List.length_zipWith _ _ _

theorem xorBytes_cancel : ∀ a b : Bytes, a.length ≤ b.length → xorBytes (xorBytes a b) b = a
  | [], _, _ => rfl
  | x :: a, y :: b, h => by
    simp only [xorBytes, List.zipWith_cons_cons, List.cons.injEq]
    exact ⟨Nat.xor_cancel_right y x, xorBytes_cancel a b (by simpa using h)⟩
  | x :: a, [], h => by simp at h

/-- C3: the AES-GCM store/recover round trip — for every plaintext, every
encryption secret and every 12-byte IV, and every keystream/tag pair
satisfying the AES-GCM interface contract (stream of requested length,
byte-valued outputs, 16-byte tag), decrypting the encryption under the
same secret returns the plaintext. -/
theorem C3_encrypt_roundtrip (ks : AesKeystream) (tag : AesTag) (p k : JStr) (iv : Bytes)
    (hkslen : ∀ key iv n, (ks key iv n).length = n)
    (hksb : ∀ key iv n, ∀ b ∈ ks key iv n, b < 256)
    (htagb : ∀ key iv ct, ∀ b ∈ tag key iv ct, b < 256)
    (htaglen : ∀ key iv ct, (tag key iv ct).length = 16)
    (hivlen : iv.length = 12) (hivb : ∀ b ∈ iv, b < 256) :
    decryptApiKey ks tag (encryptApiKey ks tag p k iv) k = some p := by
  unfold encryptApiKey decryptApiKey
  have hptb := utf8Encode_lt p
  have hbodyb : ∀ x ∈ xorBytes (utf8Encode p)
      (ks (utf8Encode (deriveAesKeyStr k)) iv (utf8Encode p).length), x < 256 :=
    xorBytes_lt _ _ hptb (hksb _ _ _)
  have hallb : ∀ x ∈ iv ++ xorBytes (utf8Encode p)
        (ks (utf8Encode (deriveAesKeyStr k)) iv (utf8Encode p).length) ++
        tag (utf8Encode (deriveAesKeyStr k)) iv (xorBytes (utf8Encode p)
          (ks (utf8Encode (deriveAesKeyStr k)) iv (utf8Encode p).length)), x < 256 := by
    intro x hx
    rcases List.mem_append.mp hx with hx' | hx'
    · rcases List.mem_append.mp hx' with hx'' | hx''
      · exact hivb x hx''
      · exact hbodyb x hx''
    · exact htagb _ _ _ x hx'
  rw [atob_btoa _ hallb]
  simp only []
  have hbodylen : (xorBytes (utf8Encode p)
      (ks (utf8Encode (deriveAesKeyStr k)) iv (utf8Encode p).length)).length =
      (utf8Encode p).length := by
    rw [xorBytes_length, hkslen]
    omega
  rw [List.append_assoc, ← hivlen, List.take_left, List.drop_left]
  rw [List.length_append, hbodylen, htaglen]
  rw [if_neg (by omega)]
  have hidx : (utf8Encode p).length + 16 - 16 = (xorBytes (utf8Encode p)
      (ks (utf8Encode (deriveAesKeyStr k)) iv (utf8Encode p).length)).length := by omega
  rw [hidx, List.take_left, List.drop_left, if_pos rfl, hbodylen,
    xorBytes_cancel _ _ (by rw [hkslen]), utf8_roundtrip]

theorem ksDemo_length : ∀ key iv n, (ksDemo key iv n).length = n := by
  intro key iv n
  simp [ksDemo]

theorem ksDemo_lt : ∀ key iv n, ∀ b ∈ ksDemo key iv n, b < 256 := by
  intro key iv n b hb
  simp only [ksDemo, List.mem_map] at hb
  rcases hb with ⟨i, _, rfl⟩
  exact Nat.mod_lt _ (by norm_num)

theorem tagDemo_length : ∀ key iv ct, (tagDemo key iv ct).length = 16 := by
  intro key iv ct
  simp [tagDemo]

theorem tagDemo_lt : ∀ key iv ct, ∀ b ∈ tagDemo key iv ct, b < 256 := by
  intro key iv ct b hb
  simp only [tagDemo, List.mem_map] at hb
  rcases hb with ⟨i, _, rfl⟩
  exact Nat.mod_lt _ (by norm_num)

/-- C3 witness: the round trip at a concrete key, secret and IV under the
demo instantiation of the AES interface. -/
theorem C3_encrypt_roundtrip_witness :
    decryptApiKey ksDemo tagDemo
      (encryptApiKey ksDemo tagDemo (cs ("pb-key-123")) (cs ("abc")) ivDemo) (cs ("abc")) =
      some (cs ("pb-key-123")) :=
  C3_encrypt_roundtrip ksDemo tagDemo (cs ("pb-key-123")) (cs ("abc")) ivDemo
    ksDemo_length ksDemo_lt tagDemo_lt tagDemo_length (by decide) (by decide)

/-- C4 counterexample: the secrets "abc" and "abc0" are distinct, yet the
key derivation `padEnd(32,'0').slice(0,32)` maps both to the same 32-byte
AES key, so decrypting under the second secret succeeds and silently
returns the plaintext instead of raising an error. -/
theorem C4_counterexample :
    cs ("abc") ≠ cs ("abc0") ∧
    deriveAesKeyStr (cs ("abc")) = deriveAesKeyStr (cs ("abc0")) ∧
    decryptApiKey ksDemo tagDemo
      (encryptApiKey ksDemo tagDemo (cs ("pb-key-123")) (cs ("abc")) ivDemo) (cs ("abc0")) =
      some (cs ("pb-key-123")) := by
  refine ⟨by decide, by decide, ?_⟩
  have hd : deriveAesKeyStr (cs ("abc")) = deriveAesKeyStr (cs ("abc0")) := by decide
  have := C3_encrypt_roundtrip ksDemo tagDemo (cs ("pb-key-123")) (cs ("abc")) ivDemo
    ksDemo_length ksDemo_lt tagDemo_lt tagDemo_length (by decide) (by decide)
  unfold decryptApiKey at this ⊢
  rw [← hd]
  exact this

/-- C4 (amended): decryption under a second secret fails loudly whenever
the AES-GCM authentication check fails — that is, whenever the tag
recomputed under the second secret's derived key differs from the stored
tag, which the AES-GCM interface guarantees (up to negligible forgery
probability) whenever the two derived keys differ.  When the two distinct
secrets derive the same AES key (the counterexample), decryption instead
succeeds and returns the plaintext. -/
theorem C4_wrong_key_fails (ks : AesKeystream) (tag : AesTag) (p k1 k2 : JStr) (iv : Bytes)
    (hkslen : ∀ key iv n, (ks key iv n).length = n)
    (hksb : ∀ key iv n, ∀ b ∈ ks key iv n, b < 256)
    (htagb : ∀ key iv ct, ∀ b ∈ tag key iv ct, b < 256)
    (htaglen : ∀ key iv ct, (tag key iv ct).length = 16)
    (hivlen : iv.length = 12) (hivb : ∀ b ∈ iv, b < 256)
    (hmismatch : tag (utf8Encode (deriveAesKeyStr k2)) iv
        (xorBytes (utf8Encode p) (ks (utf8Encode (deriveAesKeyStr k1)) iv
          (utf8Encode p).length)) ≠
      tag (utf8Encode (deriveAesKeyStr k1)) iv
        (xorBytes (utf8Encode p) (ks (utf8Encode (deriveAesKeyStr k1)) iv
          (utf8Encode p).length))) :
    decryptApiKey ks tag (encryptApiKey ks tag p k1 iv) k2 = none := by
  unfold encryptApiKey decryptApiKey
  have hptb := utf8Encode_lt p
  have hbodyb : ∀ x ∈ xorBytes (utf8Encode p)
      (ks (utf8Encode (deriveAesKeyStr k1)) iv (utf8Encode p).length), x < 256 :=
    xorBytes_lt _ _ hptb (hksb _ _ _)
  have hallb : ∀ x ∈ iv ++ xorBytes (utf8Encode p)
        (ks (utf8Encode (deriveAesKeyStr k1)) iv (utf8Encode p).length) ++
        tag (utf8Encode (deriveAesKeyStr k1)) iv (xorBytes (utf8Encode p)
          (ks (utf8Encode (deriveAesKeyStr k1)) iv (utf8Encode p).length)), x < 256 := by
    intro x hx
    rcases List.mem_append.mp hx with hx' | hx'
    · rcases List.mem_append.mp hx' with hx'' | hx''
      · exact hivb x hx''
      · exact hbodyb x hx''
    · exact htagb _ _ _ x hx'
  rw [atob_btoa _ hallb]
  simp only []
  have hbodylen : (xorBytes (utf8Encode p)
      (ks (utf8Encode (deriveAesKeyStr k1)) iv (utf8Encode p).length)).length =
      (utf8Encode p).length := by
    rw [xorBytes_length, hkslen]
    omega
  rw [List.append_assoc, ← hivlen, List.take_left, List.drop_left]
  rw [List.length_append, hbodylen, htaglen]
  rw [if_neg (by omega)]
  have hidx : (utf8Encode p).length + 16 - 16 = (xorBytes (utf8Encode p)
      (ks (utf8Encode (deriveAesKeyStr k1)) iv (utf8Encode p).length)).length := by omega
  rw [hidx, List.take_left, List.drop_left, if_neg (fun h => hmismatch h.symm)]

/-- C4 witness: under the demo AES interface, two secrets with different
derived keys produce different tags and decryption fails. -/
theorem C4_wrong_key_fails_witness :
    decryptApiKey ksDemo tagDemo
      (encryptApiKey ksDemo tagDemo (cs ("pb-key-123")) (cs ("k1x")) ivDemo) (cs ("k2y")) =
      none :=
  C4_wrong_key_fails ksDemo tagDemo (cs ("pb-key-123")) (cs ("k1x")) (cs ("k2y")) ivDemo
    ksDemo_length ksDemo_lt tagDemo_lt tagDemo_length (by decide) (by decide) (by decide)

/-- C10: every character of an encrypted blob is a standard base64
character (alphabet or padding); in particular the blob contains no
single quote, backslash or newline, so splicing it between single quotes
in the login handler's `echo '<blob>' > …` command cannot escape the
quoted literal — the whole command contains exactly the two delimiting
quotes. -/
theorem C10_blob_shell_safe (ks : AesKeystream) (tag : AesTag) (p k : JStr) (iv : Bytes)
    (hksb : ∀ key iv n, ∀ b ∈ ks key iv n, b < 256)
    (htagb : ∀ key iv ct, ∀ b ∈ tag key iv ct, b < 256)
    (hivb : ∀ b ∈ iv, b < 256) :
    (∀ c ∈ encryptApiKey ks tag p k iv,
      ((∃ i, i < 64 ∧ c = b64Char i) ∨ c = '=') ∧ c ≠ '\x27' ∧ c ≠ '\\' ∧ c ≠ '\x0a') ∧
    (loginKeyWriteCommand (encryptApiKey ks tag p k iv)).count '\x27' = 2 := by
  have hallb : ∀ x ∈ iv ++ xorBytes (utf8Encode p)
        (ks (utf8Encode (deriveAesKeyStr k)) iv (utf8Encode p).length) ++
        tag (utf8Encode (deriveAesKeyStr k)) iv (xorBytes (utf8Encode p)
          (ks (utf8Encode (deriveAesKeyStr k)) iv (utf8Encode p).length)), x < 256 := by
    intro x hx
    rcases List.mem_append.mp hx with hx' | hx'
    · rcases List.mem_append.mp hx' with hx'' | hx''
      · exact hivb x hx''
      · exact xorBytes_lt _ _ (utf8Encode_lt p) (hksb _ _ _) x hx''
    · exact htagb _ _ _ x hx'
  have hb64 : ∀ i, i < 64 → b64Char i ≠ '\x27' ∧ b64Char i ≠ '\\' ∧ b64Char i ≠ '\x0a' := by
    decide
  have hchars : ∀ c ∈ encryptApiKey ks tag p k iv,
      ((∃ i, i < 64 ∧ c = b64Char i) ∨ c = '=') ∧ c ≠ '\x27' ∧ c ≠ '\\' ∧ c ≠ '\x0a' := by
    intro c hc
    have hm := mem_btoaBytes _ hallb c hc
    refine ⟨hm, ?_, ?_, ?_⟩ <;> rcases hm with ⟨i, hi, rfl⟩ | rfl
    · exact (hb64 i hi).1
    · decide
    · exact (hb64 i hi).2.1
    · decide
    · exact (hb64 i hi).2.2
    · decide
  refine ⟨hchars, ?_⟩
  unfold loginKeyWriteCommand
  rw [List.count_append, List.count_append]
  have hblob : (encryptApiKey ks tag p k iv).count '\x27' = 0 :=
    List.count_eq_zero.mpr (fun hmem => (hchars _ hmem).2.1 rfl)
  rw [hblob]
  decide

/-- C10 witness: blob shell safety at a concrete encryption under the
demo AES interface. -/
theorem C10_blob_shell_safe_witness :
    (loginKeyWriteCommand (encryptApiKey ksDemo tagDemo (cs ("pb-key-123")) (cs ("abc"))
      ivDemo)).count '\x27' = 2 :=
  (C10_blob_shell_safe ksDemo tagDemo (cs ("pb-key-123")) (cs ("abc")) ivDemo
    ksDemo_lt tagDemo_lt (by decide)).2

/-! ## Claim C6: the session TTL boundary -/

/-- C6: a correctly signed token whose embedded age is TTL + 1 second is
rejected, while one of age TTL − 1 second is accepted — both read off the
general round-trip characterization of `verifySessionToken` applied to
`createSessionToken`. -/
theorem C6_ttl_boundary (p : PoeSessionUser) (secret : JStr) (now : Nat)
    (hp : jsonSafePayload p = true) :
    (now = p.createdAt + SESSION_MAX_AGE_MS + 1000 →
      verifySessionToken (createSessionToken p secret) secret now = none) ∧
    (now = p.createdAt + (SESSION_MAX_AGE_MS - 1000) →
      verifySessionToken (createSessionToken p secret) secret now = some p) := by
  rw [verify_create p secret now hp]
  constructor
  · intro h
    rw [if_pos (by unfold SESSION_MAX_AGE_MS at *; omega)]
  · intro h
    rw [if_neg (by unfold SESSION_MAX_AGE_MS at *; omega)]

/-- C6 witness: the TTL boundary at a concrete payload and secret. -/
theorem C6_ttl_boundary_witness :
    verifySessionToken (createSessionToken ⟨cs ("abc123"), cs ("5678"), [], 1000000⟩
        (cs ("test-session-secret"))) (cs ("test-session-secret"))
      (1000000 + SESSION_MAX_AGE_MS + 1000) = none ∧
    verifySessionToken (createSessionToken ⟨cs ("abc123"), cs ("5678"), [], 1000000⟩
        (cs ("test-session-secret"))) (cs ("test-session-secret"))
      (1000000 + (SESSION_MAX_AGE_MS - 1000)) =
      some ⟨cs ("abc123"), cs ("5678"), [], 1000000⟩ :=
  ⟨(C6_ttl_boundary ⟨cs ("abc123"), cs ("5678"), [], 1000000⟩ (cs ("test-session-secret")) _
      (by decide)).1 rfl,
    (C6_ttl_boundary ⟨cs ("abc123"), cs ("5678"), [], 1000000⟩ (cs ("test-session-secret")) _
      (by decide)).2 rfl⟩

/-! ## Claim C9: the login rate limiter -/

theorem rlGet_rlSet_self : ∀ (st : RateState) (ip : JStr) (v : RateEntry),
    rlGet (rlSet st ip v) ip = some v
  | [], _, _ => by simp [rlSet, rlGet]
  | e :: rest, ip, v => by
    by_cases h : e.1 = ip
    · simp [rlSet, rlGet, h]
    · simp only [rlSet, rlGet, if_neg h]
      exact rlGet_rlSet_self rest ip v

/-- Running attempts whose times sit within the current window, while the
window budget is not exhausted: each attempt is processed on its merits
and the count advances by one per attempt. -/
theorem runLogin_within : ∀ (st : RateState) (ip : JStr) (e : RateEntry)
    (reqs : List (Nat × LoginAttempt)),
    rlGet st ip = some e →
    (∀ q ∈ reqs, q.1 ≤ e.resetAt) →
    e.count + reqs.length ≤ MAX_ATTEMPTS →
    (runLogin st ip reqs).1 = reqs.map (fun q => loginMeritStatus q.2) ∧
      rlGet (runLogin st ip reqs).2 ip = some ⟨e.count + reqs.length, e.resetAt⟩
  | st, ip, e, [], hget, _, _ => by
    simpa [runLogin] using hget
  | st, ip, e, (t, req) :: reqs, hget, htimes, hcount => by
    simp only [List.length_cons] at hcount
    have ht := htimes (t, req) (by simp)
    have hstep : checkRateLimit st ip t =
        (true, rlSet st ip ⟨e.count + 1, e.resetAt⟩) := by
      unfold checkRateLimit
      rw [hget]
      simp only []
      rw [if_neg (show ¬ t > e.resetAt by omega)]
      rw [if_neg (show ¬ e.count ≥ MAX_ATTEMPTS by omega)]
    have ih := runLogin_within (rlSet st ip ⟨e.count + 1, e.resetAt⟩) ip
      ⟨e.count + 1, e.resetAt⟩ reqs (rlGet_rlSet_self _ _ _)
      (fun q hq => htimes q (by simp [hq]))
      (show e.count + 1 + reqs.length ≤ MAX_ATTEMPTS by omega)
    unfold runLogin loginStatus
    rw [hstep]
    simp only [List.map_cons]
    constructor
    · rw [← ih.1]
      rfl
    · have h2 := ih.2
      have harith : e.count + 1 + reqs.length = e.count + (reqs.length + 1) := by omega
      rw [harith] at h2
      exact h2

theorem runLogin_append : ∀ (st : RateState) (ip : JStr) (a b : List (Nat × LoginAttempt)),
    runLogin st ip (a ++ b) =
      ((runLogin st ip a).1 ++ (runLogin (runLogin st ip a).2 ip b).1,
        (runLogin (runLogin st ip a).2 ip b).2)
  | st, ip, [], b => by simp [runLogin]
  | st, ip, (t, r) :: a, b => by
    rcases hls : loginStatus st ip t r with ⟨code, st'⟩
    simp only [List.cons_append, runLogin, hls, List.append_eq]
    rw [runLogin_append st' ip a b]

theorem loginStatus_of_pass {st st' : RateState} {ip : JStr} {now : Nat}
    (req : LoginAttempt) (h : checkRateLimit st ip now = (true, st')) :
    loginStatus st ip now req = (loginMeritStatus req, st') := by
  unfold loginStatus
  rw [h]
  rfl

theorem loginStatus_of_refuse {st st' : RateState} {ip : JStr} {now : Nat}
    (req : LoginAttempt) (h : checkRateLimit st ip now = (false, st')) :
    loginStatus st ip now req = (429, st') := by
  unfold loginStatus
  rw [h]
  rfl

theorem runLogin_cons (st : RateState) (ip : JStr) (t : Nat) (r : LoginAttempt)
    (rest : List (Nat × LoginAttempt)) :
    runLogin st ip ((t, r) :: rest) =
      ((loginStatus st ip t r).1 :: (runLogin (loginStatus st ip t r).2 ip rest).1,
        (runLogin (loginStatus st ip t r).2 ip rest).2) := by
  rcases hls : loginStatus st ip t r with ⟨code, st2⟩
  simp only [runLogin, hls]

/-- C9: from a fresh address, the first 10 login attempts inside the
60-second window opened by the first attempt are each processed on their
own merits (the rate check passes and the status is the merit status:
400/401/500/200 as the request warrants), the 11th within the same window
is answered 429 regardless of its key or validation outcome, and any
attempt after the window has elapsed is processed on its merits again. -/
theorem C9_login_rate_limit (st : RateState) (ip : JStr) (t0 : Nat) (r0 : LoginAttempt)
    (rest : List (Nat × LoginAttempt))
    (hfresh : rlGet st ip = none) (hlen : rest.length = 10)
    (htimes : ∀ q ∈ rest, q.1 ≤ t0 + WINDOW_MS) :
    (runLogin st ip ((t0, r0) :: rest)).1 =
      (((t0, r0) :: rest).take 10).map (fun q => loginMeritStatus q.2) ++ [429] ∧
    ∀ t' req, t' > t0 + WINDOW_MS →
      (loginStatus (runLogin st ip ((t0, r0) :: rest)).2 ip t' req).1 =
        loginMeritStatus req := by
  obtain ⟨⟨tl, rl⟩, hq⟩ : ∃ qlast, rest.drop 9 = [qlast] := by
    have hlen9 : (rest.drop 9).length = 1 := by simp [hlen]
    cases hd : rest.drop 9 with
    | nil => rw [hd] at hlen9; simp at hlen9
    | cons x l =>
      rw [hd] at hlen9
      refine ⟨x, ?_⟩
      have h0 : l.length = 0 := by simp only [List.length_cons] at hlen9; omega
      rw [List.eq_nil_of_length_eq_zero h0]
  have hrest : rest = rest.take 9 ++ [(tl, rl)] := by
    conv_lhs => rw [← List.take_append_drop 9 rest]
    rw [hq]
  have halen : (rest.take 9).length = 9 := by simp [hlen]
  have hstep0 : checkRateLimit st ip t0 = (true, rlSet st ip ⟨1, t0 + WINDOW_MS⟩) := by
    unfold checkRateLimit
    rw [hfresh]
  have hwithin := runLogin_within (rlSet st ip ⟨1, t0 + WINDOW_MS⟩) ip ⟨1, t0 + WINDOW_MS⟩
    (rest.take 9) (rlGet_rlSet_self _ _ _)
    (fun q hq' => htimes q (List.mem_of_mem_take hq'))
    (show 1 + (rest.take 9).length ≤ MAX_ATTEMPTS by rw [halen]; decide)
  have hlast : tl ≤ t0 + WINDOW_MS :=
    htimes (tl, rl) (by rw [hrest]; exact List.mem_append.mpr (Or.inr (by simp)))
  have hget10 : rlGet (runLogin (rlSet st ip ⟨1, t0 + WINDOW_MS⟩) ip (rest.take 9)).2 ip =
      some ⟨10, t0 + WINDOW_MS⟩ := by
    have h2 := hwithin.2
    rw [halen] at h2
    exact h2
  have hstepLast : checkRateLimit (runLogin (rlSet st ip ⟨1, t0 + WINDOW_MS⟩) ip
      (rest.take 9)).2 ip tl =
      (false, (runLogin (rlSet st ip ⟨1, t0 + WINDOW_MS⟩) ip (rest.take 9)).2) := by
    unfold checkRateLimit
    rw [hget10]
    simp only []
    rw [if_neg (show ¬ tl > t0 + WINDOW_MS by omega)]
    rw [if_pos (show (10 : Nat) ≥ MAX_ATTEMPTS by decide)]
  have hfinal : runLogin (runLogin (rlSet st ip ⟨1, t0 + WINDOW_MS⟩) ip (rest.take 9)).2 ip
      [(tl, rl)] = ([429], (runLogin (rlSet st ip ⟨1, t0 + WINDOW_MS⟩) ip (rest.take 9)).2) := by
    rw [runLogin_cons, loginStatus_of_refuse rl hstepLast]
    rfl
  have hrun : runLogin st ip ((t0, r0) :: rest) =
      (loginMeritStatus r0 ::
        ((runLogin (rlSet st ip ⟨1, t0 + WINDOW_MS⟩) ip (rest.take 9)).1 ++ [429]),
        (runLogin (rlSet st ip ⟨1, t0 + WINDOW_MS⟩) ip (rest.take 9)).2) := by
    conv_lhs => rw [hrest]
    rw [runLogin_cons, loginStatus_of_pass r0 hstep0]
    simp only []
    rw [runLogin_append, hfinal]
  refine ⟨?_, ?_⟩
  · rw [hrun]
    simp only []
    rw [hwithin.1]
    have htake : ((t0, r0) :: rest).take 10 = (t0, r0) :: rest.take 9 := rfl
    rw [htake]
    simp
  · intro t' req ht'
    rw [hrun]
    have hc : checkRateLimit
        (runLogin (rlSet st ip ⟨1, t0 + WINDOW_MS⟩) ip (rest.take 9)).2 ip t' =
        (true, rlSet (runLogin (rlSet st ip ⟨1, t0 + WINDOW_MS⟩) ip (rest.take 9)).2 ip
          ⟨1, t' + WINDOW_MS⟩) := by
      unfold checkRateLimit
      rw [hget10]
      simp only []
      rw [if_pos (show t' > t0 + WINDOW_MS from ht')]
    rw [loginStatus_of_pass req hc]

/-- C9 witness: eleven attempts from one address inside one window — ten
judged on their merits (including a 401 for a bad key), the eleventh
refused with 429 — and a later attempt after the window judged on its
merits again. -/
theorem C9_login_rate_limit_witness :
    (runLogin [] (cs ("1.2.3.4"))
      ((1000, attOk) :: ((2000, attBad) :: List.replicate 9 (30000, attOk)))).1 =
      [200, 401, 200, 200, 200, 200, 200, 200, 200, 200, 429] ∧
    (loginStatus (runLogin [] (cs ("1.2.3.4"))
      ((1000, attOk) :: ((2000, attBad) :: List.replicate 9 (30000, attOk)))).2
      (cs ("1.2.3.4")) 70000 attOk).1 = 200 := by
  have h := C9_login_rate_limit [] (cs ("1.2.3.4")) 1000 attOk
    ((2000, attBad) :: List.replicate 9 (30000, attOk)) rfl (by decide) (by decide)
  refine ⟨?_, ?_⟩
  · rw [h.1]
    decide
  · have h2 := h.2 70000 attOk (by decide)
    rw [h2]
    decide

/-! ## Claim C5: single-character tampering

Helper lemmas characterising forgiving-base64 on near-valid inputs, needed
to settle what a one-character flip does to the signature segment. -/

theorem b64IndexAux_some (c : Char) : ∀ (l : JStr) (i v : Nat),
    b64IndexAux c l i = some v → i ≤ v ∧ v - i < l.length ∧ l.getD (v - i) ('A') = c
  | [], i, v => by simp [b64IndexAux]
  | d :: rest, i, v => by
    intro h
    unfold b64IndexAux at h
    by_cases hc : c = d
    · rw [if_pos hc] at h
      obtain rfl : i = v := Option.some.inj h
      exact ⟨le_refl _, by simp, by simp [hc]⟩
    · rw [if_neg hc] at h
      have ih := b64IndexAux_some c rest (i + 1) v h
      refine ⟨by omega, by simp only [List.length_cons]; omega, ?_⟩
      have hvi : v - i = (v - (i + 1)) + 1 := by omega
      rw [hvi, List.getD_cons_succ]
      exact ih.2.2

theorem b64Index_some (c : Char) (v : Nat) (h : b64Index c = some v) :
    v < 64 ∧ b64Char v = c := by
  have hh := b64IndexAux_some c b64Alphabet 0 v h
  have hlen : b64Alphabet.length = 64 := by decide
  obtain ⟨-, h1, h2⟩ := hh
  rw [hlen] at h1
  exact ⟨by omega, by simpa [b64Char] using h2⟩

theorem b64Decode4_append : ∀ (l1 l2 : List Nat), l1.length % 4 = 0 →
    b64Decode4 (l1 ++ l2) = b64Decode4 l1 ++ b64Decode4 l2
  | [], _, _ => rfl
  | [_], _, h => by simp at h
  | [_, _], _, h => by simp at h
  | [_, _, _], _, h => by simp at h
  | a :: b :: c :: d :: rest, l2, h => by
    have ih := b64Decode4_append rest l2 (by simp only [List.length_cons] at h; omega)
    simp only [List.cons_append, b64Decode4, List.append_eq, ih, List.append_assoc]

theorem b64Decode4_length : ∀ l : List Nat, (b64Decode4 l).length =
    l.length / 4 * 3 + (if l.length % 4 ≤ 1 then 0 else l.length % 4 - 1)
  | [] => by simp [b64Decode4]
  | [_] => by simp [b64Decode4]
  | [_, _] => by simp [b64Decode4]
  | [_, _, _] => by simp [b64Decode4]
  | a :: b :: c :: d :: rest => by
    have ih := b64Decode4_length rest
    simp only [b64Decode4, List.cons_append, List.nil_append, List.length_append,
      List.length_cons, ih]
    have h4 : (rest.length + 1 + 1 + 1 + 1) % 4 = rest.length % 4 := by omega
    rw [h4]
    split_ifs <;> omega

theorem b64Indices_none : ∀ (l : JStr) (c : Char), c ∈ l → b64Index c = none →
    b64Indices l = none
  | [], c, h => by simp at h
  | d :: rest, c, h => by
    intro hidx
    rcases List.mem_cons.mp h with rfl | hm
    · cases hrest : b64Indices rest <;> simp [b64Indices, hidx, hrest]
    · have ih := b64Indices_none rest c hm hidx
      cases hd : b64Index d <;> simp [b64Indices, hd, ih]

theorem b64StripPad_last_ne (x : JStr) (y : Char) (hy : y ≠ '=') :
    b64StripPad (x ++ [y]) = x ++ [y] := by
  unfold b64StripPad
  rw [if_neg (by rw [List.getLast?_concat]; simp [hy])]

theorem b64StripPad_concat_pad (x : JStr) (hx : x.getLast? ≠ some '=') :
    b64StripPad (x ++ ['=']) = x := by
  have h2 : (x ++ ['=']).dropLast = x := List.dropLast_concat
  unfold b64StripPad
  rw [if_pos (List.getLast?_concat x), h2, if_neg hx]

theorem b64Groups_append3 : ∀ (u r : Bytes), u.length % 3 = 0 →
    b64Groups (u ++ r) = b64Groups u ++ b64Groups r
  | [], _, _ => rfl
  | [_], _, h => by simp at h
  | [_, _], _, h => by simp at h
  | a :: b :: c :: rest, r, h => by
    have ih := b64Groups_append3 rest r (by simp only [List.length_cons] at h; omega)
    simp only [List.cons_append, b64Groups, List.append_eq, ih, List.append_assoc]

theorem atob_map_alpha (idxs : List Nat) (h : ∀ i ∈ idxs, i < 64)
    (hlen : idxs.length % 4 ≠ 1) :
    atobBytes (idxs.map b64Char) = some (b64Decode4 idxs) := by
  have hfil : (idxs.map b64Char).filter (fun c => !isB64Ws c) = idxs.map b64Char := by
    rw [List.filter_eq_self]
    intro c hc
    rcases List.mem_map.mp hc with ⟨i, hi, rfl⟩
    simp [b64Char_not_ws i (h i hi)]
  have hnopad : ∀ c ∈ idxs.map b64Char, c ≠ '=' := by
    intro c hc
    rcases List.mem_map.mp hc with ⟨i, hi, rfl⟩
    exact b64Char_ne_pad i (h i hi)
  simp only [atobBytes, hfil]
  by_cases h0 : idxs.length % 4 = 0
  · rw [if_pos (show (List.map b64Char idxs).length % 4 = 0 by rw [List.length_map]; exact h0),
      b64StripPad_no_pad _ hnopad,
      if_neg (show ¬(List.map b64Char idxs).length % 4 = 1 by rw [List.length_map]; exact hlen),
      b64Indices_map_b64Char _ h]
    rfl
  · rw [if_neg (show ¬(List.map b64Char idxs).length % 4 = 0 by rw [List.length_map]; exact h0),
      if_neg (show ¬(List.map b64Char idxs).length % 4 = 1 by rw [List.length_map]; exact hlen),
      b64Indices_map_b64Char _ h]
    rfl

theorem atob_map_alpha_pad (idxs : List Nat) (h : ∀ i ∈ idxs, i < 64)
    (hlen : idxs.length % 4 = 3) :
    atobBytes (idxs.map b64Char ++ ['=']) = some (b64Decode4 idxs) := by
  have hfil : (idxs.map b64Char ++ ['=']).filter (fun c => !isB64Ws c) =
      idxs.map b64Char ++ ['='] := by
    rw [List.filter_eq_self]
    intro c hc
    rcases List.mem_append.mp hc with hm | hp
    · rcases List.mem_map.mp hm with ⟨i, hi, rfl⟩
      simp [b64Char_not_ws i (h i hi)]
    · rw [List.mem_singleton.mp hp]
      simp [pad_not_ws]
  have hnopad : ∀ c ∈ idxs.map b64Char, c ≠ '=' := by
    intro c hc
    rcases List.mem_map.mp hc with ⟨i, hi, rfl⟩
    exact b64Char_ne_pad i (h i hi)
  simp only [atobBytes, hfil]
  rw [if_pos (show (List.map b64Char idxs ++ ['=']).length % 4 = 0 by
      simp only [List.length_append, List.length_map, List.length_singleton]; omega),
    b64StripPad_one _ hnopad,
    if_neg (show ¬(List.map b64Char idxs).length % 4 = 1 by rw [List.length_map]; omega),
    b64Indices_map_b64Char _ h]
  rfl

theorem atob_filter_mod3_bad (s y : JStr) (hf : s.filter (fun c => !isB64Ws c) = y)
    (hly : y.length % 4 = 3) (bad : Char) (hbad : bad ∈ y) (hidx : b64Index bad = none) :
    atobBytes s = none := by
  simp only [atobBytes, hf]
  rw [if_neg (show ¬y.length % 4 = 0 by omega), if_neg (show ¬y.length % 4 = 1 by omega),
    b64Indices_none y bad hbad hidx]
  rfl

theorem atob_pad_bad (s x : JStr) (hf : s.filter (fun c => !isB64Ws c) = x ++ ['='])
    (hlen : (x.length + 1) % 4 = 0) (hlast : x.getLast? ≠ some '=')
    (bad : Char) (hbad : bad ∈ x) (hidx : b64Index bad = none) :
    atobBytes s = none := by
  simp only [atobBytes, hf]
  rw [if_pos (show (x ++ ['=']).length % 4 = 0 by
      simp only [List.length_append, List.length_singleton]; omega),
    b64StripPad_concat_pad x hlast]
  by_cases h1 : x.length % 4 = 1
  · rw [if_pos h1]
  · rw [if_neg h1, b64Indices_none x bad hbad hidx]
    rfl

theorem atob_filter_mod1 (s y : JStr) (hf : s.filter (fun c => !isB64Ws c) = y)
    (hly : y.length % 4 = 1) : atobBytes s = none := by
  simp only [atobBytes, hf]
  rw [if_neg (show ¬y.length % 4 = 0 by omega), if_pos hly]

/-- If the token splits into a payload part and a signature part whose
decode never matches the recomputed HMAC, verification rejects. -/
theorem verify_none_gate (t secret : JStr) (now : Nat) (pb sb : JStr) (rest : List JStr)
    (hsplit : splitDot t = pb :: sb :: rest)
    (hfail : ∀ g, atobBytes sb = some g →
      g ≠ hmacSha256 (utf8Encode secret) (utf8Encode pb)) :
    verifySessionToken t secret now = none := by
  unfold verifySessionToken
  rw [hsplit]
  simp only []
  by_cases hpe : pb = [] ∨ sb = []
  · rw [if_pos hpe]
  · rw [if_neg hpe]
    cases hat : atobBytes sb with
    | none => rfl
    | some g =>
      simp only []
      rw [if_neg (hfail g hat)]

/-- If the token splits into the canonical payload of `p` and a signature
part decoding to the matching HMAC, verification behaves exactly as on the
canonical token. -/
theorem verify_gate (p : PoeSessionUser) (secret : JStr) (now : Nat) (t : JStr)
    (sb : JStr) (rest : List JStr) (hp : jsonSafePayload p = true)
    (hsplit : splitDot t = btoaBytes (charBytes (encodePayload p)) :: sb :: rest)
    (hat : atobBytes sb = some (hmacSha256 (utf8Encode secret)
      (utf8Encode (btoaBytes (charBytes (encodePayload p)))))) :
    verifySessionToken t secret now =
      if now - p.createdAt > SESSION_MAX_AGE_MS then none else some p := by
  have hascii := encodePayload_ascii p hp
  have hpjb : ∀ b ∈ charBytes (encodePayload p), b < 256 := charBytes_lt _ hascii
  have hpb_ne : btoaBytes (charBytes (encodePayload p)) ≠ [] := by
    apply btoaBytes_ne_nil
    intro hch
    exact encodePayload_ne_nil p (by simpa [charBytes] using hch)
  have hsb_ne : sb ≠ [] := by
    intro h
    rw [h, show atobBytes [] = some [] from rfl] at hat
    have hl := congrArg List.length (Option.some.inj hat)
    rw [hmacSha256_length] at hl
    simp at hl
  unfold verifySessionToken
  rw [hsplit]
  simp only []
  rw [if_neg (by simp only [not_or]; exact ⟨hpb_ne, hsb_ne⟩), hat]
  simp only []
  rw [if_pos trivial, atob_btoa _ hpjb]
  simp only []
  rw [map_ofNat_charBytes, parsePayload_encode p hp]

/-- A tampered token that still splits and signature-checks verifies
exactly like the token it was derived from. -/
theorem verify_eq_create (p : PoeSessionUser) (secret : JStr) (now : Nat) (t : JStr)
    (sb : JStr) (rest : List JStr) (hp : jsonSafePayload p = true)
    (hsplit : splitDot t = btoaBytes (charBytes (encodePayload p)) :: sb :: rest)
    (hat : atobBytes sb = some (hmacSha256 (utf8Encode secret)
      (utf8Encode (btoaBytes (charBytes (encodePayload p)))))) :
    verifySessionToken t secret now =
      verifySessionToken (createSessionToken p secret) secret now := by
  rw [verify_gate p secret now t sb rest hp hsplit hat, verify_create p secret now hp]

/-- Flipping a payload character (to anything but a dot) rejects whenever
the recomputed HMAC of the altered payload differs from the stored one. -/
theorem flip_payload (p : PoeSessionUser) (secret : JStr) (now : Nat) (i : Nat) (c : Char)
    (hp : jsonSafePayload p = true)
    (hi : i < (btoaBytes (charBytes (encodePayload p))).length)
    (hdot : c ≠ '.')
    (hmm : hmacSha256 (utf8Encode secret)
        (utf8Encode ((btoaBytes (charBytes (encodePayload p))).set i c)) ≠
      hmacSha256 (utf8Encode secret) (utf8Encode (btoaBytes (charBytes (encodePayload p))))) :
    verifySessionToken ((createSessionToken p secret).set i c) secret now = none := by
  have hascii := encodePayload_ascii p hp
  have hpjb := charBytes_lt _ hascii
  have hsig_lt := hmacSha256_lt (utf8Encode secret)
    (utf8Encode (btoaBytes (charBytes (encodePayload p))))
  have htok : createSessionToken p secret =
      btoaBytes (charBytes (encodePayload p)) ++ '.' ::
        btoaBytes (hmacSha256 (utf8Encode secret)
          (utf8Encode (btoaBytes (charBytes (encodePayload p))))) := rfl
  rw [htok, List.set_append_left i c hi]
  have hnd : ∀ z ∈ (btoaBytes (charBytes (encodePayload p))).set i c, z ≠ '.' := by
    intro z hz
    rcases List.mem_or_eq_of_mem_set hz with hm | rfl
    · exact btoaBytes_no_dot _ hpjb z hm
    · exact hdot
  refine verify_none_gate _ secret now
    ((btoaBytes (charBytes (encodePayload p))).set i c)
    (btoaBytes (hmacSha256 (utf8Encode secret)
      (utf8Encode (btoaBytes (charBytes (encodePayload p)))))) [] ?_ ?_
  · rw [splitDot_append _ _ hnd, splitDot_no_dot _ (btoaBytes_no_dot _ hsig_lt)]
  · intro g hg
    rw [atob_btoa _ hsig_lt] at hg
    rw [← Option.some.inj hg]
    exact fun h => hmm h.symm

/-- Flipping a payload character to a dot rejects whenever the base64
decode of the remainder never matches the HMAC of the shortened payload. -/
theorem flip_payload_dot (p : PoeSessionUser) (secret : JStr) (now : Nat) (i : Nat)
    (hp : jsonSafePayload p = true)
    (hi : i < (btoaBytes (charBytes (encodePayload p))).length)
    (hforge : ∀ g, atobBytes ((btoaBytes (charBytes (encodePayload p))).drop (i + 1)) = some g →
      g ≠ hmacSha256 (utf8Encode secret)
        (utf8Encode ((btoaBytes (charBytes (encodePayload p))).take i))) :
    verifySessionToken ((createSessionToken p secret).set i ('.')) secret now = none := by
  have hascii := encodePayload_ascii p hp
  have hpjb := charBytes_lt _ hascii
  have hsig_lt := hmacSha256_lt (utf8Encode secret)
    (utf8Encode (btoaBytes (charBytes (encodePayload p))))
  have htok : createSessionToken p secret =
      btoaBytes (charBytes (encodePayload p)) ++ '.' ::
        btoaBytes (hmacSha256 (utf8Encode secret)
          (utf8Encode (btoaBytes (charBytes (encodePayload p))))) := rfl
  have hset : (btoaBytes (charBytes (encodePayload p))).set i ('.') =
      (btoaBytes (charBytes (encodePayload p))).take i ++ '.' ::
        (btoaBytes (charBytes (encodePayload p))).drop (i + 1) := by
    rw [List.set_eq_take_append_cons_drop, if_pos hi]
  rw [htok, List.set_append_left i _ hi, hset, List.append_assoc]
  refine verify_none_gate _ secret now
    ((btoaBytes (charBytes (encodePayload p))).take i)
    ((btoaBytes (charBytes (encodePayload p))).drop (i + 1))
    [btoaBytes (hmacSha256 (utf8Encode secret)
      (utf8Encode (btoaBytes (charBytes (encodePayload p)))))] ?_ hforge
  rw [List.cons_append,
    splitDot_append _ _ (fun z hz => btoaBytes_no_dot _ hpjb z (List.mem_of_mem_take hz)),
    splitDot_append _ _ (fun z hz => btoaBytes_no_dot _ hpjb z (List.mem_of_mem_drop hz)),
    splitDot_no_dot _ (btoaBytes_no_dot _ hsig_lt)]

theorem bytes32_shape (sig : Bytes) (hlen : sig.length = 32) (hlt : ∀ x ∈ sig, x < 256) :
    ∃ u a b, sig = u ++ [a, b] ∧ u.length = 30 ∧ (∀ x ∈ u, x < 256) ∧ a < 256 ∧ b < 256 := by
  have h1 : (sig.drop 30).length = 2 := by rw [List.length_drop, hlen]
  obtain ⟨a, t, ht⟩ := List.exists_cons_of_ne_nil
    (show sig.drop 30 ≠ [] by intro h; rw [h] at h1; simp at h1)
  obtain ⟨b, t2, ht2⟩ := List.exists_cons_of_ne_nil
    (show t ≠ [] by intro h; rw [ht, h] at h1; simp at h1)
  have ht2nil : t2 = [] := by
    rw [ht, ht2] at h1
    simp only [List.length_cons] at h1
    exact List.eq_nil_of_length_eq_zero (by omega)
  have hdecomp : sig = sig.take 30 ++ [a, b] := by
    conv_lhs => rw [← List.take_append_drop 30 sig]
    rw [ht, ht2, ht2nil]
  have hmem : ∀ x ∈ sig.drop 30, x < 256 := fun x hx => hlt x (List.mem_of_mem_drop hx)
  refine ⟨sig.take 30, a, b, hdecomp, ?_, ?_, ?_, ?_⟩
  · rw [List.length_take, hlen]
    rfl
  · exact fun x hx => hlt x (List.mem_of_mem_take hx)
  · exact hmem a (by rw [ht]; simp)
  · exact hmem b (by rw [ht, ht2]; simp)

theorem btoa_sig_shape (u : Bytes) (a b : Nat) (hu : u.length = 30) :
    btoaBytes (u ++ [a, b]) = (b64Groups u).map b64Char ++
      [b64Char (a / 4), b64Char (a % 4 * 16 + b / 16), b64Char (b % 16 * 4), '='] := by
  unfold btoaBytes
  rw [b64Groups_append3 u [a, b] (by omega)]
  have hpad : b64PadLen (u ++ [a, b]).length = 1 := by
    unfold b64PadLen
    rw [List.length_append, hu]
    norm_num
  rw [hpad]
  have hgab : b64Groups [a, b] = [a / 4, a % 4 * 16 + b / 16, b % 16 * 4] := rfl
  rw [hgab]
  simp [List.map_append]

theorem atob_filter_alpha (s : JStr) (idxs : List Nat)
    (hf : s.filter (fun c => !isB64Ws c) = idxs.map b64Char)
    (h64 : ∀ i ∈ idxs, i < 64) (h0 : idxs.length % 4 ≠ 0) (h1 : idxs.length % 4 ≠ 1) :
    atobBytes s = some (b64Decode4 idxs) := by
  simp only [atobBytes, hf]
  rw [if_neg (show ¬(List.map b64Char idxs).length % 4 = 0 by rw [List.length_map]; exact h0),
    if_neg (show ¬(List.map b64Char idxs).length % 4 = 1 by rw [List.length_map]; exact h1),
    b64Indices_map_b64Char _ h64]
  rfl

theorem atob_last_bad (s x : JStr) (y : Char) (hf : s.filter (fun c => !isB64Ws c) = x ++ [y])
    (hlen : (x.length + 1) % 4 = 0) (hy : y ≠ '=')
    (bad : Char) (hbad : bad ∈ x ++ [y]) (hidx : b64Index bad = none) :
    atobBytes s = none := by
  simp only [atobBytes, hf]
  rw [if_pos (show (x ++ [y]).length % 4 = 0 by
      simp only [List.length_append, List.length_singleton]; omega),
    b64StripPad_last_ne x y hy,
    if_neg (show ¬(x ++ [y]).length % 4 = 1 by
      simp only [List.length_append, List.length_singleton]; omega),
    b64Indices_none _ bad hbad hidx]
  rfl

theorem atob_strip2_alpha (s : JStr) (idxs : List Nat)
    (hf : s.filter (fun c => !isB64Ws c) = idxs.map b64Char ++ ['=', '='])
    (hlen : (idxs.length + 2) % 4 = 0) (h64 : ∀ i ∈ idxs, i < 64)
    (h1 : idxs.length % 4 ≠ 1) :
    atobBytes s = some (b64Decode4 idxs) := by
  simp only [atobBytes, hf]
  rw [if_pos (show (List.map b64Char idxs ++ ['=', '=']).length % 4 = 0 by
      simp only [List.length_append, List.length_map, List.length_cons, List.length_nil]; omega),
    b64StripPad_two,
    if_neg (show ¬(List.map b64Char idxs).length % 4 = 1 by rw [List.length_map]; exact h1),
    b64Indices_map_b64Char _ h64]
  rfl

/-- Flipping the first character of the final base64 quantum of the
signature always rejects. -/
theorem flip_sig_k0 (p : PoeSessionUser) (secret : JStr) (now : Nat)
    (u : Bytes) (a b : Nat) (c : Char)
    (hp : jsonSafePayload p = true)
    (hsig : hmacSha256 (utf8Encode secret)
        (utf8Encode (btoaBytes (charBytes (encodePayload p)))) = u ++ [a, b])
    (hu : u.length = 30) (hult : ∀ x ∈ u, x < 256) (ha : a < 256) (hb : b < 256)
    (hc : c ≠ b64Char (a / 4)) :
    verifySessionToken (btoaBytes (charBytes (encodePayload p)) ++ '.' ::
        ((b64Groups u).map b64Char ++
          [c, b64Char (a % 4 * 16 + b / 16), b64Char (b % 16 * 4), '=']))
      secret now = none := by
  have hascii := encodePayload_ascii p hp
  have hpjb := charBytes_lt _ hascii
  have hpbSnodot := btoaBytes_no_dot _ hpjb
  have hg1 : a % 4 * 16 + b / 16 < 64 := by omega
  have hg2 : b % 16 * 4 < 64 := by omega
  have hGu64 : ∀ i ∈ b64Groups u, i < 64 := b64Groups_lt u hult
  have hGulen : (b64Groups u).length = 40 := by rw [b64Groups_length, hu]; norm_num
  have hm40ws : ∀ z ∈ (b64Groups u).map b64Char, isB64Ws z = false := by
    intro z hz
    rcases List.mem_map.mp hz with ⟨i, hi, rfl⟩
    exact b64Char_not_ws i (hGu64 i hi)
  have hm40dot : ∀ z ∈ (b64Groups u).map b64Char, z ≠ '.' := by
    intro z hz
    rcases List.mem_map.mp hz with ⟨i, hi, rfl⟩
    exact b64Char_ne_dot i (hGu64 i hi)
  have hdecGu : b64Decode4 (b64Groups u) = u := b64Decode4_groups u hult
  have hpadidx : b64Index ('=') = none := by decide
  by_cases hdotc : c = '.'
  · subst hdotc
    refine verify_none_gate _ secret now (btoaBytes (charBytes (encodePayload p)))
      ((b64Groups u).map b64Char)
      [[b64Char (a % 4 * 16 + b / 16), b64Char (b % 16 * 4), '=']] ?_ ?_
    · have hnd3 : ∀ z ∈ [b64Char (a % 4 * 16 + b / 16), b64Char (b % 16 * 4), '='],
          z ≠ '.' := by
        intro z hz
        rcases (by simpa using hz :
            z = b64Char (a % 4 * 16 + b / 16) ∨ z = b64Char (b % 16 * 4) ∨ z = '=') with
          rfl | rfl | rfl
        · exact b64Char_ne_dot _ hg1
        · exact b64Char_ne_dot _ hg2
        · decide
      rw [splitDot_append _ _ hpbSnodot, splitDot_append _ _ hm40dot,
        splitDot_no_dot _ hnd3]
    · intro g hg
      rw [atob_map_alpha (b64Groups u) hGu64 (by rw [hGulen]; norm_num), hdecGu] at hg
      obtain rfl := Option.some.inj hg
      intro heq
      rw [hsig] at heq
      have hl := congrArg List.length heq
      rw [List.length_append, hu] at hl
      simp at hl
  · by_cases hwsc : isB64Ws c = true
    · refine verify_none_gate _ secret now (btoaBytes (charBytes (encodePayload p)))
        ((b64Groups u).map b64Char ++
          [c, b64Char (a % 4 * 16 + b / 16), b64Char (b % 16 * 4), '=']) [] ?_ ?_
      · have hnd : ∀ z ∈ (b64Groups u).map b64Char ++
            [c, b64Char (a % 4 * 16 + b / 16), b64Char (b % 16 * 4), '='], z ≠ '.' := by
          intro z hz
          rcases List.mem_append.mp hz with hm | hz4
          · exact hm40dot z hm
          · rcases (by simpa using hz4 : z = c ∨
                z = b64Char (a % 4 * 16 + b / 16) ∨ z = b64Char (b % 16 * 4) ∨ z = '=') with
              rfl | rfl | rfl | rfl
            · exact hdotc
            · exact b64Char_ne_dot _ hg1
            · exact b64Char_ne_dot _ hg2
            · decide
        rw [splitDot_append _ _ hpbSnodot, splitDot_no_dot _ hnd]
      · intro g hg
        have hf : ((b64Groups u).map b64Char ++
            [c, b64Char (a % 4 * 16 + b / 16), b64Char (b % 16 * 4), '=']).filter
              (fun z => !isB64Ws z) =
            (b64Groups u).map b64Char ++
              [b64Char (a % 4 * 16 + b / 16), b64Char (b % 16 * 4), '='] := by
          rw [List.filter_append,
            List.filter_eq_self.mpr (fun z hz => by simp [hm40ws z hz])]
          congr 1
          simp [List.filter, hwsc, b64Char_not_ws _ hg1, b64Char_not_ws _ hg2, pad_not_ws]
        rw [atob_filter_mod3_bad _ _ hf
          (by simp only [List.length_append, List.length_map, hGulen, List.length_cons,
            List.length_nil])
          ('=') (by simp) hpadidx] at hg
        simp at hg
    · have hcws : isB64Ws c = false := by revert hwsc; cases isB64Ws c <;> simp
      cases hidxc : b64Index c with
      | some w =>
        obtain ⟨hw64, hcw⟩ := b64Index_some c w hidxc
        refine verify_none_gate _ secret now (btoaBytes (charBytes (encodePayload p)))
          ((b64Groups u).map b64Char ++
            [c, b64Char (a % 4 * 16 + b / 16), b64Char (b % 16 * 4), '=']) [] ?_ ?_
        · have hnd : ∀ z ∈ (b64Groups u).map b64Char ++
              [c, b64Char (a % 4 * 16 + b / 16), b64Char (b % 16 * 4), '='], z ≠ '.' := by
            intro z hz
            rcases List.mem_append.mp hz with hm | hz4
            · exact hm40dot z hm
            · rcases (by simpa using hz4 : z = c ∨
                  z = b64Char (a % 4 * 16 + b / 16) ∨ z = b64Char (b % 16 * 4) ∨ z = '=') with
                rfl | rfl | rfl | rfl
              · exact hdotc
              · exact b64Char_ne_dot _ hg1
              · exact b64Char_ne_dot _ hg2
              · decide
          rw [splitDot_append _ _ hpbSnodot, splitDot_no_dot _ hnd]
        · intro g hg
          have hshape : (b64Groups u).map b64Char ++
              [c, b64Char (a % 4 * 16 + b / 16), b64Char (b % 16 * 4), '='] =
              (b64Groups u ++ [w, a % 4 * 16 + b / 16, b % 16 * 4]).map b64Char ++ ['='] := by
            simp [List.map_append, hcw]
          have h64 : ∀ i ∈ b64Groups u ++ [w, a % 4 * 16 + b / 16, b % 16 * 4], i < 64 := by
            intro i hi
            rcases List.mem_append.mp hi with hm | hm3
            · exact hGu64 i hm
            · rcases (by simpa using hm3 : i = w ∨ i = a % 4 * 16 + b / 16 ∨ i = b % 16 * 4) with
                rfl | rfl | rfl
              · exact hw64
              · exact hg1
              · exact hg2
          rw [hshape, atob_map_alpha_pad _ h64
            (by simp only [List.length_append, hGulen, List.length_cons,
              List.length_nil])] at hg
          obtain rfl := Option.some.inj hg
          intro heq
          rw [hsig, b64Decode4_append _ _ (by rw [hGulen]), hdecGu] at heq
          have h2 := List.append_cancel_left heq
          rw [show b64Decode4 [w, a % 4 * 16 + b / 16, b % 16 * 4] =
            [w * 4 + (a % 4 * 16 + b / 16) / 16,
              (a % 4 * 16 + b / 16) % 16 * 16 + (b % 16 * 4) / 4] from rfl] at h2
          simp only [List.cons.injEq, and_true] at h2
          obtain ⟨h2a, -⟩ := h2
          have hweq : w = a / 4 := by omega
          exact hc (by rw [← hcw, hweq])
      | none =>
        refine verify_none_gate _ secret now (btoaBytes (charBytes (encodePayload p)))
          ((b64Groups u).map b64Char ++
            [c, b64Char (a % 4 * 16 + b / 16), b64Char (b % 16 * 4), '=']) [] ?_ ?_
        · have hnd : ∀ z ∈ (b64Groups u).map b64Char ++
              [c, b64Char (a % 4 * 16 + b / 16), b64Char (b % 16 * 4), '='], z ≠ '.' := by
            intro z hz
            rcases List.mem_append.mp hz with hm | hz4
            · exact hm40dot z hm
            · rcases (by simpa using hz4 : z = c ∨
                  z = b64Char (a % 4 * 16 + b / 16) ∨ z = b64Char (b % 16 * 4) ∨ z = '=') with
                rfl | rfl | rfl | rfl
              · exact hdotc
              · exact b64Char_ne_dot _ hg1
              · exact b64Char_ne_dot _ hg2
              · decide
          rw [splitDot_append _ _ hpbSnodot, splitDot_no_dot _ hnd]
        · intro g hg
          have hfself : ((b64Groups u).map b64Char ++
              [c, b64Char (a % 4 * 16 + b / 16), b64Char (b % 16 * 4), '=']).filter
                (fun z => !isB64Ws z) =
              (b64Groups u).map b64Char ++
                [c, b64Char (a % 4 * 16 + b / 16), b64Char (b % 16 * 4), '='] := by
            rw [List.filter_eq_self]
            intro z hz
            rcases List.mem_append.mp hz with hm | hz4
            · simp [hm40ws z hm]
            · rcases (by simpa using hz4 : z = c ∨
                  z = b64Char (a % 4 * 16 + b / 16) ∨ z = b64Char (b % 16 * 4) ∨ z = '=') with
                rfl | rfl | rfl | rfl
              · simp [hcws]
              · simp [b64Char_not_ws _ hg1]
              · simp [b64Char_not_ws _ hg2]
              · simp [pad_not_ws]
          have hf2 : ((b64Groups u).map b64Char ++
              [c, b64Char (a % 4 * 16 + b / 16), b64Char (b % 16 * 4), '=']).filter
                (fun z => !isB64Ws z) =
              ((b64Groups u).map b64Char ++
                [c, b64Char (a % 4 * 16 + b / 16), b64Char (b % 16 * 4)]) ++ ['='] := by
            rw [hfself]
            simp
          have hlast : ((b64Groups u).map b64Char ++
              [c, b64Char (a % 4 * 16 + b / 16), b64Char (b % 16 * 4)]).getLast? ≠
                some '=' := by
            rw [show (b64Groups u).map b64Char ++
                [c, b64Char (a % 4 * 16 + b / 16), b64Char (b % 16 * 4)] =
                ((b64Groups u).map b64Char ++
                  [c, b64Char (a % 4 * 16 + b / 16)]) ++ [b64Char (b % 16 * 4)] by simp,
              List.getLast?_concat]
            simp [b64Char_ne_pad _ hg2]
          rw [atob_pad_bad _ _ hf2
            (by simp only [List.length_append, List.length_map, hGulen,
              List.length_cons, List.length_nil])
            hlast c (by simp) hidxc] at hg
          simp at hg

/-- Flipping the second character of the final base64 quantum of the
signature always rejects. -/
theorem flip_sig_k1 (p : PoeSessionUser) (secret : JStr) (now : Nat)
    (u : Bytes) (a b : Nat) (c : Char)
    (hp : jsonSafePayload p = true)
    (hsig : hmacSha256 (utf8Encode secret)
        (utf8Encode (btoaBytes (charBytes (encodePayload p)))) = u ++ [a, b])
    (hu : u.length = 30) (hult : ∀ x ∈ u, x < 256) (ha : a < 256) (hb : b < 256)
    (hc : c ≠ b64Char (a % 4 * 16 + b / 16)) :
    verifySessionToken (btoaBytes (charBytes (encodePayload p)) ++ '.' ::
        ((b64Groups u).map b64Char ++
          [b64Char (a / 4), c, b64Char (b % 16 * 4), '=']))
      secret now = none := by
  have hascii := encodePayload_ascii p hp
  have hpjb := charBytes_lt _ hascii
  have hpbSnodot := btoaBytes_no_dot _ hpjb
  have hg0 : a / 4 < 64 := by omega
  have hg2 : b % 16 * 4 < 64 := by omega
  have hGu64 : ∀ i ∈ b64Groups u, i < 64 := b64Groups_lt u hult
  have hGulen : (b64Groups u).length = 40 := by rw [b64Groups_length, hu]; norm_num
  have hm40ws : ∀ z ∈ (b64Groups u).map b64Char, isB64Ws z = false := by
    intro z hz
    rcases List.mem_map.mp hz with ⟨i, hi, rfl⟩
    exact b64Char_not_ws i (hGu64 i hi)
  have hm40dot : ∀ z ∈ (b64Groups u).map b64Char, z ≠ '.' := by
    intro z hz
    rcases List.mem_map.mp hz with ⟨i, hi, rfl⟩
    exact b64Char_ne_dot i (hGu64 i hi)
  have hdecGu : b64Decode4 (b64Groups u) = u := b64Decode4_groups u hult
  have hpadidx : b64Index ('=') = none := by decide
  by_cases hdotc : c = '.'
  · subst hdotc
    refine verify_none_gate _ secret now (btoaBytes (charBytes (encodePayload p)))
      ((b64Groups u).map b64Char ++ [b64Char (a / 4)])
      [[b64Char (b % 16 * 4), '=']] ?_ ?_
    · rw [show (b64Groups u).map b64Char ++ [b64Char (a / 4), '.', b64Char (b % 16 * 4), '='] =
        ((b64Groups u).map b64Char ++ [b64Char (a / 4)]) ++ '.' ::
          [b64Char (b % 16 * 4), '='] by simp]
      have hnd1 : ∀ z ∈ (b64Groups u).map b64Char ++ [b64Char (a / 4)], z ≠ '.' := by
        intro z hz
        rcases List.mem_append.mp hz with hm | hz1
        · exact hm40dot z hm
        · rw [List.mem_singleton.mp hz1]
          exact b64Char_ne_dot _ hg0
      have hnd2 : ∀ z ∈ [b64Char (b % 16 * 4), '='], z ≠ '.' := by
        intro z hz
        rcases (by simpa using hz : z = b64Char (b % 16 * 4) ∨ z = '=') with rfl | rfl
        · exact b64Char_ne_dot _ hg2
        · decide
      rw [splitDot_append _ _ hpbSnodot, splitDot_append _ _ hnd1, splitDot_no_dot _ hnd2]
    · intro g hg
      have hfself : ((b64Groups u).map b64Char ++ [b64Char (a / 4)]).filter
          (fun z => !isB64Ws z) = (b64Groups u).map b64Char ++ [b64Char (a / 4)] := by
        rw [List.filter_eq_self]
        intro z hz
        rcases List.mem_append.mp hz with hm | hz1
        · simp [hm40ws z hm]
        · rw [List.mem_singleton.mp hz1]
          simp [b64Char_not_ws _ hg0]
      rw [atob_filter_mod1 _ _ hfself
        (by simp only [List.length_append, List.length_map, hGulen,
          List.length_cons, List.length_nil])] at hg
      simp at hg
  · by_cases hwsc : isB64Ws c = true
    · refine verify_none_gate _ secret now (btoaBytes (charBytes (encodePayload p)))
        ((b64Groups u).map b64Char ++
          [b64Char (a / 4), c, b64Char (b % 16 * 4), '=']) [] ?_ ?_
      · have hnd : ∀ z ∈ (b64Groups u).map b64Char ++
            [b64Char (a / 4), c, b64Char (b % 16 * 4), '='], z ≠ '.' := by
          intro z hz
          rcases List.mem_append.mp hz with hm | hz4
          · exact hm40dot z hm
          · rcases (by simpa using hz4 : z = b64Char (a / 4) ∨ z = c ∨
                z = b64Char (b % 16 * 4) ∨ z = '=') with rfl | rfl | rfl | rfl
            · exact b64Char_ne_dot _ hg0
            · exact hdotc
            · exact b64Char_ne_dot _ hg2
            · decide
        rw [splitDot_append _ _ hpbSnodot, splitDot_no_dot _ hnd]
      · intro g hg
        have hf : ((b64Groups u).map b64Char ++
            [b64Char (a / 4), c, b64Char (b % 16 * 4), '=']).filter
              (fun z => !isB64Ws z) =
            (b64Groups u).map b64Char ++
              [b64Char (a / 4), b64Char (b % 16 * 4), '='] := by
          rw [List.filter_append,
            List.filter_eq_self.mpr (fun z hz => by simp [hm40ws z hz])]
          congr 1
          simp [List.filter, hwsc, b64Char_not_ws _ hg0, b64Char_not_ws _ hg2, pad_not_ws]
        rw [atob_filter_mod3_bad _ _ hf
          (by simp only [List.length_append, List.length_map, hGulen, List.length_cons,
            List.length_nil])
          ('=') (by simp) hpadidx] at hg
        simp at hg
    · have hcws : isB64Ws c = false := by revert hwsc; cases isB64Ws c <;> simp
      cases hidxc : b64Index c with
      | some w =>
        obtain ⟨hw64, hcw⟩ := b64Index_some c w hidxc
        refine verify_none_gate _ secret now (btoaBytes (charBytes (encodePayload p)))
          ((b64Groups u).map b64Char ++
            [b64Char (a / 4), c, b64Char (b % 16 * 4), '=']) [] ?_ ?_
        · have hnd : ∀ z ∈ (b64Groups u).map b64Char ++
              [b64Char (a / 4), c, b64Char (b % 16 * 4), '='], z ≠ '.' := by
            intro z hz
            rcases List.mem_append.mp hz with hm | hz4
            · exact hm40dot z hm
            · rcases (by simpa using hz4 : z = b64Char (a / 4) ∨ z = c ∨
                  z = b64Char (b % 16 * 4) ∨ z = '=') with rfl | rfl | rfl | rfl
              · exact b64Char_ne_dot _ hg0
              · exact hdotc
              · exact b64Char_ne_dot _ hg2
              · decide
          rw [splitDot_append _ _ hpbSnodot, splitDot_no_dot _ hnd]
        · intro g hg
          have hshape : (b64Groups u).map b64Char ++
              [b64Char (a / 4), c, b64Char (b % 16 * 4), '='] =
              (b64Groups u ++ [a / 4, w, b % 16 * 4]).map b64Char ++ ['='] := by
            simp [List.map_append, hcw]
          have h64 : ∀ i ∈ b64Groups u ++ [a / 4, w, b % 16 * 4], i < 64 := by
            intro i hi
            rcases List.mem_append.mp hi with hm | hm3
            · exact hGu64 i hm
            · rcases (by simpa using hm3 : i = a / 4 ∨ i = w ∨ i = b % 16 * 4) with
                rfl | rfl | rfl
              · exact hg0
              · exact hw64
              · exact hg2
          rw [hshape, atob_map_alpha_pad _ h64
            (by simp only [List.length_append, hGulen, List.length_cons,
              List.length_nil])] at hg
          obtain rfl := Option.some.inj hg
          intro heq
          rw [hsig, b64Decode4_append _ _ (by rw [hGulen]), hdecGu] at heq
          have h2 := List.append_cancel_left heq
          rw [show b64Decode4 [a / 4, w, b % 16 * 4] =
            [a / 4 * 4 + w / 16, w % 16 * 16 + (b % 16 * 4) / 4] from rfl] at h2
          simp only [List.cons.injEq, and_true] at h2
          obtain ⟨h2a, h2b⟩ := h2
          have hweq : w = a % 4 * 16 + b / 16 := by omega
          exact hc (by rw [← hcw, hweq])
      | none =>
        refine verify_none_gate _ secret now (btoaBytes (charBytes (encodePayload p)))
          ((b64Groups u).map b64Char ++
            [b64Char (a / 4), c, b64Char (b % 16 * 4), '=']) [] ?_ ?_
        · have hnd : ∀ z ∈ (b64Groups u).map b64Char ++
              [b64Char (a / 4), c, b64Char (b % 16 * 4), '='], z ≠ '.' := by
            intro z hz
            rcases List.mem_append.mp hz with hm | hz4
            · exact hm40dot z hm
            · rcases (by simpa using hz4 : z = b64Char (a / 4) ∨ z = c ∨
                  z = b64Char (b % 16 * 4) ∨ z = '=') with rfl | rfl | rfl | rfl
              · exact b64Char_ne_dot _ hg0
              · exact hdotc
              · exact b64Char_ne_dot _ hg2
              · decide
          rw [splitDot_append _ _ hpbSnodot, splitDot_no_dot _ hnd]
        · intro g hg
          have hfself : ((b64Groups u).map b64Char ++
              [b64Char (a / 4), c, b64Char (b % 16 * 4), '=']).filter
                (fun z => !isB64Ws z) =
              (b64Groups u).map b64Char ++
                [b64Char (a / 4), c, b64Char (b % 16 * 4), '='] := by
            rw [List.filter_eq_self]
            intro z hz
            rcases List.mem_append.mp hz with hm | hz4
            · simp [hm40ws z hm]
            · rcases (by simpa using hz4 : z = b64Char (a / 4) ∨ z = c ∨
                  z = b64Char (b % 16 * 4) ∨ z = '=') with rfl | rfl | rfl | rfl
              · simp [b64Char_not_ws _ hg0]
              · simp [hcws]
              · simp [b64Char_not_ws _ hg2]
              · simp [pad_not_ws]
          have hf2 : ((b64Groups u).map b64Char ++
              [b64Char (a / 4), c, b64Char (b % 16 * 4), '=']).filter
                (fun z => !isB64Ws z) =
              ((b64Groups u).map b64Char ++
                [b64Char (a / 4), c, b64Char (b % 16 * 4)]) ++ ['='] := by
            rw [hfself]
            simp
          have hlast : ((b64Groups u).map b64Char ++
              [b64Char (a / 4), c, b64Char (b % 16 * 4)]).getLast? ≠ some '=' := by
            rw [show (b64Groups u).map b64Char ++
                [b64Char (a / 4), c, b64Char (b % 16 * 4)] =
                ((b64Groups u).map b64Char ++ [b64Char (a / 4), c]) ++
                  [b64Char (b % 16 * 4)] by simp,
              List.getLast?_concat]
            simp [b64Char_ne_pad _ hg2]
          rw [atob_pad_bad _ _ hf2
            (by simp only [List.length_append, List.length_map, hGulen,
              List.length_cons, List.length_nil])
            hlast c (by simp) hidxc] at hg
          simp at hg

/-- Flipping the third character of the final base64 quantum of the
signature rejects, except for an alphabet character sharing the original's
high four bits, which is accepted because forgiving-base64 discards the
trailing two bits of the final quantum. -/
theorem flip_sig_k2 (p : PoeSessionUser) (secret : JStr) (now : Nat)
    (u : Bytes) (a b : Nat) (c : Char)
    (hp : jsonSafePayload p = true)
    (hsig : hmacSha256 (utf8Encode secret)
        (utf8Encode (btoaBytes (charBytes (encodePayload p)))) = u ++ [a, b])
    (hu : u.length = 30) (hult : ∀ x ∈ u, x < 256) (ha : a < 256) (hb : b < 256)
    (hc : c ≠ b64Char (b % 16 * 4)) :
    verifySessionToken (btoaBytes (charBytes (encodePayload p)) ++ '.' ::
        ((b64Groups u).map b64Char ++
          [b64Char (a / 4), b64Char (a % 4 * 16 + b / 16), c, '=']))
      secret now = none ∨
    ((∃ w, b64Index c = some w ∧ w / 4 = (b % 16 * 4) / 4) ∧
      verifySessionToken (btoaBytes (charBytes (encodePayload p)) ++ '.' ::
          ((b64Groups u).map b64Char ++
            [b64Char (a / 4), b64Char (a % 4 * 16 + b / 16), c, '=']))
        secret now = verifySessionToken (createSessionToken p secret) secret now) := by
  have hascii := encodePayload_ascii p hp
  have hpjb := charBytes_lt _ hascii
  have hpbSnodot := btoaBytes_no_dot _ hpjb
  have hg0 : a / 4 < 64 := by omega
  have hg1 : a % 4 * 16 + b / 16 < 64 := by omega
  have hGu64 : ∀ i ∈ b64Groups u, i < 64 := b64Groups_lt u hult
  have hGulen : (b64Groups u).length = 40 := by rw [b64Groups_length, hu]; norm_num
  have hm40ws : ∀ z ∈ (b64Groups u).map b64Char, isB64Ws z = false := by
    intro z hz
    rcases List.mem_map.mp hz with ⟨i, hi, rfl⟩
    exact b64Char_not_ws i (hGu64 i hi)
  have hm40dot : ∀ z ∈ (b64Groups u).map b64Char, z ≠ '.' := by
    intro z hz
    rcases List.mem_map.mp hz with ⟨i, hi, rfl⟩
    exact b64Char_ne_dot i (hGu64 i hi)
  have hdecGu : b64Decode4 (b64Groups u) = u := b64Decode4_groups u hult
  have hpadidx : b64Index ('=') = none := by decide
  have h64pair : ∀ i ∈ b64Groups u ++ [a / 4, a % 4 * 16 + b / 16], i < 64 := by
    intro i hi
    rcases List.mem_append.mp hi with hm | hm2
    · exact hGu64 i hm
    · rcases (by simpa using hm2 : i = a / 4 ∨ i = a % 4 * 16 + b / 16) with rfl | rfl
      · exact hg0
      · exact hg1
  have hdec2 : b64Decode4 (b64Groups u ++ [a / 4, a % 4 * 16 + b / 16]) =
      u ++ [a / 4 * 4 + (a % 4 * 16 + b / 16) / 16] := by
    rw [b64Decode4_append _ _ (by rw [hGulen]), hdecGu]
    rfl
  have hlen31 : ∀ g : Bytes, g = u ++ [a / 4 * 4 + (a % 4 * 16 + b / 16) / 16] →
      g ≠ hmacSha256 (utf8Encode secret)
        (utf8Encode (btoaBytes (charBytes (encodePayload p)))) := by
    rintro g rfl heq
    rw [hsig] at heq
    have hl := congrArg List.length heq
    simp only [List.length_append, hu, List.length_cons, List.length_nil] at hl
    omega
  by_cases hdotc : c = '.'
  · subst hdotc
    refine Or.inl (verify_none_gate _ secret now (btoaBytes (charBytes (encodePayload p)))
      ((b64Groups u).map b64Char ++ [b64Char (a / 4), b64Char (a % 4 * 16 + b / 16)])
      [['=']] ?_ ?_)
    · rw [show (b64Groups u).map b64Char ++
        [b64Char (a / 4), b64Char (a % 4 * 16 + b / 16), '.', '='] =
        ((b64Groups u).map b64Char ++ [b64Char (a / 4), b64Char (a % 4 * 16 + b / 16)]) ++
          '.' :: ['='] by simp]
      have hnd1 : ∀ z ∈ (b64Groups u).map b64Char ++
          [b64Char (a / 4), b64Char (a % 4 * 16 + b / 16)], z ≠ '.' := by
        intro z hz
        rcases List.mem_append.mp hz with hm | hz2
        · exact hm40dot z hm
        · rcases (by simpa using hz2 :
              z = b64Char (a / 4) ∨ z = b64Char (a % 4 * 16 + b / 16)) with rfl | rfl
          · exact b64Char_ne_dot _ hg0
          · exact b64Char_ne_dot _ hg1
      have hnd2 : ∀ z ∈ ['='], z ≠ '.' := by
        intro z hz
        rw [List.mem_singleton.mp hz]
        decide
      rw [splitDot_append _ _ hpbSnodot, splitDot_append _ _ hnd1, splitDot_no_dot _ hnd2]
    · intro g hg
      have hmapeq : (b64Groups u).map b64Char ++
          [b64Char (a / 4), b64Char (a % 4 * 16 + b / 16)] =
          (b64Groups u ++ [a / 4, a % 4 * 16 + b / 16]).map b64Char := by
        simp [List.map_append]
      have hlen42 : (b64Groups u ++ [a / 4, a % 4 * 16 + b / 16]).length % 4 ≠ 1 := by
        simp only [List.length_append, hGulen, List.length_cons, List.length_nil]
        omega
      rw [hmapeq, atob_map_alpha _ h64pair hlen42, hdec2] at hg
      exact hlen31 g (Option.some.inj hg).symm
  · by_cases hwsc : isB64Ws c = true
    · refine Or.inl (verify_none_gate _ secret now (btoaBytes (charBytes (encodePayload p)))
        ((b64Groups u).map b64Char ++
          [b64Char (a / 4), b64Char (a % 4 * 16 + b / 16), c, '=']) [] ?_ ?_)
      · have hnd : ∀ z ∈ (b64Groups u).map b64Char ++
            [b64Char (a / 4), b64Char (a % 4 * 16 + b / 16), c, '='], z ≠ '.' := by
          intro z hz
          rcases List.mem_append.mp hz with hm | hz4
          · exact hm40dot z hm
          · rcases (by simpa using hz4 : z = b64Char (a / 4) ∨
                z = b64Char (a % 4 * 16 + b / 16) ∨ z = c ∨ z = '=') with
              rfl | rfl | rfl | rfl
            · exact b64Char_ne_dot _ hg0
            · exact b64Char_ne_dot _ hg1
            · exact hdotc
            · decide
        rw [splitDot_append _ _ hpbSnodot, splitDot_no_dot _ hnd]
      · intro g hg
        have hf : ((b64Groups u).map b64Char ++
            [b64Char (a / 4), b64Char (a % 4 * 16 + b / 16), c, '=']).filter
              (fun z => !isB64Ws z) =
            (b64Groups u).map b64Char ++
              [b64Char (a / 4), b64Char (a % 4 * 16 + b / 16), '='] := by
          rw [List.filter_append,
            List.filter_eq_self.mpr (fun z hz => by simp [hm40ws z hz])]
          congr 1
          simp [List.filter, hwsc, b64Char_not_ws _ hg0, b64Char_not_ws _ hg1, pad_not_ws]
        rw [atob_filter_mod3_bad _ _ hf
          (by simp only [List.length_append, List.length_map, hGulen, List.length_cons,
            List.length_nil])
          ('=') (by simp) hpadidx] at hg
        simp at hg
    · by_cases hpadc : c = '='
      · subst hpadc
        refine Or.inl (verify_none_gate _ secret now (btoaBytes (charBytes (encodePayload p)))
          ((b64Groups u).map b64Char ++
            [b64Char (a / 4), b64Char (a % 4 * 16 + b / 16), '=', '=']) [] ?_ ?_)
        · have hnd : ∀ z ∈ (b64Groups u).map b64Char ++
              [b64Char (a / 4), b64Char (a % 4 * 16 + b / 16), '=', '='], z ≠ '.' := by
            intro z hz
            rcases List.mem_append.mp hz with hm | hz4
            · exact hm40dot z hm
            · rcases (by simpa using hz4 : z = b64Char (a / 4) ∨
                  z = b64Char (a % 4 * 16 + b / 16) ∨ z = '=' ∨ z = '=') with
                rfl | rfl | rfl | rfl
              · exact b64Char_ne_dot _ hg0
              · exact b64Char_ne_dot _ hg1
              · decide
              · decide
          rw [splitDot_append _ _ hpbSnodot, splitDot_no_dot _ hnd]
        · intro g hg
          have hf2 : ((b64Groups u).map b64Char ++
              [b64Char (a / 4), b64Char (a % 4 * 16 + b / 16), '=', '=']).filter
                (fun z => !isB64Ws z) =
              (b64Groups u ++ [a / 4, a % 4 * 16 + b / 16]).map b64Char ++ ['=', '='] := by
            rw [List.filter_eq_self.mpr]
            · simp [List.map_append]
            · intro z hz
              rcases List.mem_append.mp hz with hm | hz4
              · simp [hm40ws z hm]
              · rcases (by simpa using hz4 : z = b64Char (a / 4) ∨
                    z = b64Char (a % 4 * 16 + b / 16) ∨ z = '=' ∨ z = '=') with
                  rfl | rfl | rfl | rfl
                · simp [b64Char_not_ws _ hg0]
                · simp [b64Char_not_ws _ hg1]
                · simp [pad_not_ws]
                · simp [pad_not_ws]
          have hlen42b : (b64Groups u ++ [a / 4, a % 4 * 16 + b / 16]).length % 4 ≠ 1 := by
            simp only [List.length_append, hGulen, List.length_cons, List.length_nil]
            omega
          rw [atob_strip2_alpha _ _ hf2
            (by simp only [List.length_append, hGulen, List.length_cons, List.length_nil])
            h64pair hlen42b, hdec2] at hg
          exact hlen31 g (Option.some.inj hg).symm
      · have hcws : isB64Ws c = false := by revert hwsc; cases isB64Ws c <;> simp
        cases hidxc : b64Index c with
        | some w =>
          obtain ⟨hw64, hcw⟩ := b64Index_some c w hidxc
          have hshape : (b64Groups u).map b64Char ++
              [b64Char (a / 4), b64Char (a % 4 * 16 + b / 16), c, '='] =
              (b64Groups u ++ [a / 4, a % 4 * 16 + b / 16, w]).map b64Char ++ ['='] := by
            simp [List.map_append, hcw]
          have h64 : ∀ i ∈ b64Groups u ++ [a / 4, a % 4 * 16 + b / 16, w], i < 64 := by
            intro i hi
            rcases List.mem_append.mp hi with hm | hm3
            · exact hGu64 i hm
            · rcases (by simpa using hm3 :
                  i = a / 4 ∨ i = a % 4 * 16 + b / 16 ∨ i = w) with rfl | rfl | rfl
              · exact hg0
              · exact hg1
              · exact hw64
          have hat : atobBytes ((b64Groups u).map b64Char ++
              [b64Char (a / 4), b64Char (a % 4 * 16 + b / 16), c, '=']) =
              some (u ++ [a / 4 * 4 + (a % 4 * 16 + b / 16) / 16,
                (a % 4 * 16 + b / 16) % 16 * 16 + w / 4]) := by
            rw [hshape, atob_map_alpha_pad _ h64
              (by simp only [List.length_append, hGulen, List.length_cons,
                List.length_nil]),
              b64Decode4_append _ _ (by rw [hGulen]), hdecGu]
            rfl
          have hnd : ∀ z ∈ (b64Groups u).map b64Char ++
              [b64Char (a / 4), b64Char (a % 4 * 16 + b / 16), c, '='], z ≠ '.' := by
            intro z hz
            rcases List.mem_append.mp hz with hm | hz4
            · exact hm40dot z hm
            · rcases (by simpa using hz4 : z = b64Char (a / 4) ∨
                  z = b64Char (a % 4 * 16 + b / 16) ∨ z = c ∨ z = '=') with
                rfl | rfl | rfl | rfl
              · exact b64Char_ne_dot _ hg0
              · exact b64Char_ne_dot _ hg1
              · exact hdotc
              · decide
          by_cases hw4 : w / 4 = (b % 16 * 4) / 4
          · refine Or.inr ⟨⟨w, rfl, hw4⟩, ?_⟩
            refine verify_eq_create p secret now _
              ((b64Groups u).map b64Char ++
                [b64Char (a / 4), b64Char (a % 4 * 16 + b / 16), c, '=']) [] hp ?_ ?_
            · rw [splitDot_append _ _ hpbSnodot, splitDot_no_dot _ hnd]
            · rw [hat, hsig]
              have hA : a / 4 * 4 + (a % 4 * 16 + b / 16) / 16 = a := by omega
              have hB : (a % 4 * 16 + b / 16) % 16 * 16 + w / 4 = b := by omega
              rw [hA, hB]
          · refine Or.inl (verify_none_gate _ secret now
              (btoaBytes (charBytes (encodePayload p)))
              ((b64Groups u).map b64Char ++
                [b64Char (a / 4), b64Char (a % 4 * 16 + b / 16), c, '=']) [] ?_ ?_)
            · rw [splitDot_append _ _ hpbSnodot, splitDot_no_dot _ hnd]
            · intro g hg
              rw [hat] at hg
              obtain rfl := Option.some.inj hg
              intro heq
              rw [hsig] at heq
              have h2 := List.append_cancel_left heq
              simp only [List.cons.injEq, and_true] at h2
              obtain ⟨-, h2b⟩ := h2
              exact hw4 (by omega)
        | none =>
          refine Or.inl (verify_none_gate _ secret now
            (btoaBytes (charBytes (encodePayload p)))
            ((b64Groups u).map b64Char ++
              [b64Char (a / 4), b64Char (a % 4 * 16 + b / 16), c, '=']) [] ?_ ?_)
          · have hnd : ∀ z ∈ (b64Groups u).map b64Char ++
                [b64Char (a / 4), b64Char (a % 4 * 16 + b / 16), c, '='], z ≠ '.' := by
              intro z hz
              rcases List.mem_append.mp hz with hm | hz4
              · exact hm40dot z hm
              · rcases (by simpa using hz4 : z = b64Char (a / 4) ∨
                    z = b64Char (a % 4 * 16 + b / 16) ∨ z = c ∨ z = '=') with
                  rfl | rfl | rfl | rfl
                · exact b64Char_ne_dot _ hg0
                · exact b64Char_ne_dot _ hg1
                · exact hdotc
                · decide
            rw [splitDot_append _ _ hpbSnodot, splitDot_no_dot _ hnd]
          · intro g hg
            have hfself : ((b64Groups u).map b64Char ++
                [b64Char (a / 4), b64Char (a % 4 * 16 + b / 16), c, '=']).filter
                  (fun z => !isB64Ws z) =
                (b64Groups u).map b64Char ++
                  [b64Char (a / 4), b64Char (a % 4 * 16 + b / 16), c, '='] := by
              rw [List.filter_eq_self]
              intro z hz
              rcases List.mem_append.mp hz with hm | hz4
              · simp [hm40ws z hm]
              · rcases (by simpa using hz4 : z = b64Char (a / 4) ∨
                    z = b64Char (a % 4 * 16 + b / 16) ∨ z = c ∨ z = '=') with
                  rfl | rfl | rfl | rfl
                · simp [b64Char_not_ws _ hg0]
                · simp [b64Char_not_ws _ hg1]
                · simp [hcws]
                · simp [pad_not_ws]
            have hf2 : ((b64Groups u).map b64Char ++
                [b64Char (a / 4), b64Char (a % 4 * 16 + b / 16), c, '=']).filter
                  (fun z => !isB64Ws z) =
                ((b64Groups u).map b64Char ++
                  [b64Char (a / 4), b64Char (a % 4 * 16 + b / 16), c]) ++ ['='] := by
              rw [hfself]
              simp
            have hlast : ((b64Groups u).map b64Char ++
                [b64Char (a / 4), b64Char (a % 4 * 16 + b / 16), c]).getLast? ≠
                  some '=' := by
              rw [show (b64Groups u).map b64Char ++
                  [b64Char (a / 4), b64Char (a % 4 * 16 + b / 16), c] =
                  ((b64Groups u).map b64Char ++
                    [b64Char (a / 4), b64Char (a % 4 * 16 + b / 16)]) ++ [c] by simp,
                List.getLast?_concat]
              simp [hpadc]
            rw [atob_pad_bad _ _ hf2
              (by simp only [List.length_append, List.length_map, hGulen,
                List.length_cons, List.length_nil])
              hlast c (by simp) hidxc] at hg
            simp at hg

/-- Flipping the trailing padding character of the signature rejects,
except for ASCII whitespace (which forgiving-base64 strips) or a dot
(which splits off an extra empty segment the verifier ignores): both leave
the decoded signature unchanged and are accepted. -/
theorem flip_sig_k3 (p : PoeSessionUser) (secret : JStr) (now : Nat)
    (u : Bytes) (a b : Nat) (c : Char)
    (hp : jsonSafePayload p = true)
    (hsig : hmacSha256 (utf8Encode secret)
        (utf8Encode (btoaBytes (charBytes (encodePayload p)))) = u ++ [a, b])
    (hu : u.length = 30) (hult : ∀ x ∈ u, x < 256) (ha : a < 256) (hb : b < 256)
    (hc : c ≠ '=') :
    verifySessionToken (btoaBytes (charBytes (encodePayload p)) ++ '.' ::
        ((b64Groups u).map b64Char ++
          [b64Char (a / 4), b64Char (a % 4 * 16 + b / 16), b64Char (b % 16 * 4), c]))
      secret now = none ∨
    ((isB64Ws c = true ∨ c = '.') ∧
      verifySessionToken (btoaBytes (charBytes (encodePayload p)) ++ '.' ::
          ((b64Groups u).map b64Char ++
            [b64Char (a / 4), b64Char (a % 4 * 16 + b / 16), b64Char (b % 16 * 4), c]))
        secret now = verifySessionToken (createSessionToken p secret) secret now) := by
  have hascii := encodePayload_ascii p hp
  have hpjb := charBytes_lt _ hascii
  have hpbSnodot := btoaBytes_no_dot _ hpjb
  have hg0 : a / 4 < 64 := by omega
  have hg1 : a % 4 * 16 + b / 16 < 64 := by omega
  have hg2 : b % 16 * 4 < 64 := by omega
  have hGu64 : ∀ i ∈ b64Groups u, i < 64 := b64Groups_lt u hult
  have hGulen : (b64Groups u).length = 40 := by rw [b64Groups_length, hu]; norm_num
  have hm40ws : ∀ z ∈ (b64Groups u).map b64Char, isB64Ws z = false := by
    intro z hz
    rcases List.mem_map.mp hz with ⟨i, hi, rfl⟩
    exact b64Char_not_ws i (hGu64 i hi)
  have hm40dot : ∀ z ∈ (b64Groups u).map b64Char, z ≠ '.' := by
    intro z hz
    rcases List.mem_map.mp hz with ⟨i, hi, rfl⟩
    exact b64Char_ne_dot i (hGu64 i hi)
  have hdecGu : b64Decode4 (b64Groups u) = u := b64Decode4_groups u hult
  have h64tri : ∀ i ∈ b64Groups u ++ [a / 4, a % 4 * 16 + b / 16, b % 16 * 4], i < 64 := by
    intro i hi
    rcases List.mem_append.mp hi with hm | hm3
    · exact hGu64 i hm
    · rcases (by simpa using hm3 :
          i = a / 4 ∨ i = a % 4 * 16 + b / 16 ∨ i = b % 16 * 4) with rfl | rfl | rfl
      · exact hg0
      · exact hg1
      · exact hg2
  have hlen43 : (b64Groups u ++ [a / 4, a % 4 * 16 + b / 16, b % 16 * 4]).length = 43 := by
    simp only [List.length_append, hGulen, List.length_cons, List.length_nil]
  have hdec3 : b64Decode4 (b64Groups u ++ [a / 4, a % 4 * 16 + b / 16, b % 16 * 4]) =
      u ++ [a, b] := by
    rw [b64Decode4_append _ _ (by rw [hGulen]), hdecGu]
    have h1 : a / 4 * 4 + (a % 4 * 16 + b / 16) / 16 = a := by omega
    have h2 : (a % 4 * 16 + b / 16) % 16 * 16 + (b % 16 * 4) / 4 = b := by omega
    rw [show b64Decode4 [a / 4, a % 4 * 16 + b / 16, b % 16 * 4] =
      [a / 4 * 4 + (a % 4 * 16 + b / 16) / 16,
        (a % 4 * 16 + b / 16) % 16 * 16 + (b % 16 * 4) / 4] from rfl, h1, h2]
  have hmaptri : (b64Groups u).map b64Char ++
      [b64Char (a / 4), b64Char (a % 4 * 16 + b / 16), b64Char (b % 16 * 4)] =
      (b64Groups u ++ [a / 4, a % 4 * 16 + b / 16, b % 16 * 4]).map b64Char := by
    simp [List.map_append]
  have hndtri : ∀ z ∈ (b64Groups u).map b64Char ++
      [b64Char (a / 4), b64Char (a % 4 * 16 + b / 16), b64Char (b % 16 * 4)], z ≠ '.' := by
    intro z hz
    rcases List.mem_append.mp hz with hm | hz3
    · exact hm40dot z hm
    · rcases (by simpa using hz3 : z = b64Char (a / 4) ∨
          z = b64Char (a % 4 * 16 + b / 16) ∨ z = b64Char (b % 16 * 4)) with rfl | rfl | rfl
      · exact b64Char_ne_dot _ hg0
      · exact b64Char_ne_dot _ hg1
      · exact b64Char_ne_dot _ hg2
  by_cases hdotc : c = '.'
  · subst hdotc
    refine Or.inr ⟨Or.inr rfl, ?_⟩
    refine verify_eq_create p secret now _
      ((b64Groups u).map b64Char ++
        [b64Char (a / 4), b64Char (a % 4 * 16 + b / 16), b64Char (b % 16 * 4)])
      [[]] hp ?_ ?_
    · rw [show (b64Groups u).map b64Char ++
        [b64Char (a / 4), b64Char (a % 4 * 16 + b / 16), b64Char (b % 16 * 4), '.'] =
        ((b64Groups u).map b64Char ++
          [b64Char (a / 4), b64Char (a % 4 * 16 + b / 16), b64Char (b % 16 * 4)]) ++
          '.' :: [] by simp]
      rw [splitDot_append _ _ hpbSnodot, splitDot_append _ _ hndtri]
      rfl
    · rw [hmaptri, atob_map_alpha _ h64tri (by rw [hlen43]; omega), hdec3, ← hsig]
  · by_cases hwsc : isB64Ws c = true
    · refine Or.inr ⟨Or.inl hwsc, ?_⟩
      refine verify_eq_create p secret now _
        ((b64Groups u).map b64Char ++
          [b64Char (a / 4), b64Char (a % 4 * 16 + b / 16), b64Char (b % 16 * 4), c])
        [] hp ?_ ?_
      · have hnd : ∀ z ∈ (b64Groups u).map b64Char ++
            [b64Char (a / 4), b64Char (a % 4 * 16 + b / 16), b64Char (b % 16 * 4), c],
            z ≠ '.' := by
          intro z hz
          rcases List.mem_append.mp hz with hm | hz4
          · exact hm40dot z hm
          · rcases (by simpa using hz4 : z = b64Char (a / 4) ∨
                z = b64Char (a % 4 * 16 + b / 16) ∨ z = b64Char (b % 16 * 4) ∨ z = c) with
              rfl | rfl | rfl | rfl
            · exact b64Char_ne_dot _ hg0
            · exact b64Char_ne_dot _ hg1
            · exact b64Char_ne_dot _ hg2
            · exact hdotc
        rw [splitDot_append _ _ hpbSnodot, splitDot_no_dot _ hnd]
      · have hf : ((b64Groups u).map b64Char ++
            [b64Char (a / 4), b64Char (a % 4 * 16 + b / 16), b64Char (b % 16 * 4), c]).filter
              (fun z => !isB64Ws z) =
            (b64Groups u ++ [a / 4, a % 4 * 16 + b / 16, b % 16 * 4]).map b64Char := by
          rw [List.filter_append,
            List.filter_eq_self.mpr (fun z hz => by simp [hm40ws z hz]), ← hmaptri]
          congr 1
          simp [List.filter, hwsc, b64Char_not_ws _ hg0, b64Char_not_ws _ hg1,
            b64Char_not_ws _ hg2]
        rw [atob_filter_alpha _ _ hf h64tri (by rw [hlen43]; omega) (by rw [hlen43]; omega),
          hdec3, ← hsig]
    · cases hidxc : b64Index c with
      | some w =>
        obtain ⟨hw64, hcw⟩ := b64Index_some c w hidxc
        refine Or.inl (verify_none_gate _ secret now
          (btoaBytes (charBytes (encodePayload p)))
          ((b64Groups u).map b64Char ++
            [b64Char (a / 4), b64Char (a % 4 * 16 + b / 16), b64Char (b % 16 * 4), c])
          [] ?_ ?_)
        · have hnd : ∀ z ∈ (b64Groups u).map b64Char ++
              [b64Char (a / 4), b64Char (a % 4 * 16 + b / 16), b64Char (b % 16 * 4), c],
              z ≠ '.' := by
            intro z hz
            rcases List.mem_append.mp hz with hm | hz4
            · exact hm40dot z hm
            · rcases (by simpa using hz4 : z = b64Char (a / 4) ∨
                  z = b64Char (a % 4 * 16 + b / 16) ∨ z = b64Char (b % 16 * 4) ∨ z = c) with
                rfl | rfl | rfl | rfl
              · exact b64Char_ne_dot _ hg0
              · exact b64Char_ne_dot _ hg1
              · exact b64Char_ne_dot _ hg2
              · exact hdotc
          rw [splitDot_append _ _ hpbSnodot, splitDot_no_dot _ hnd]
        · intro g hg
          have hshape : (b64Groups u).map b64Char ++
              [b64Char (a / 4), b64Char (a % 4 * 16 + b / 16), b64Char (b % 16 * 4), c] =
              (b64Groups u ++ [a / 4, a % 4 * 16 + b / 16, b % 16 * 4, w]).map b64Char := by
            simp [List.map_append, hcw]
          have h64q : ∀ i ∈ b64Groups u ++ [a / 4, a % 4 * 16 + b / 16, b % 16 * 4, w],
              i < 64 := by
            intro i hi
            rcases List.mem_append.mp hi with hm | hm4
            · exact hGu64 i hm
            · rcases (by simpa using hm4 : i = a / 4 ∨ i = a % 4 * 16 + b / 16 ∨
                  i = b % 16 * 4 ∨ i = w) with rfl | rfl | rfl | rfl
              · exact hg0
              · exact hg1
              · exact hg2
              · exact hw64
          have hlen44 : (b64Groups u ++
              [a / 4, a % 4 * 16 + b / 16, b % 16 * 4, w]).length = 44 := by
            simp only [List.length_append, hGulen, List.length_cons, List.length_nil]
          rw [hshape, atob_map_alpha _ h64q (by rw [hlen44]; omega)] at hg
          obtain rfl := Option.some.inj hg
          intro heq
          rw [hsig] at heq
          have hl := congrArg List.length heq
          rw [b64Decode4_length, hlen44, List.length_append, hu] at hl
          norm_num at hl
      | none =>
        refine Or.inl (verify_none_gate _ secret now
          (btoaBytes (charBytes (encodePayload p)))
          ((b64Groups u).map b64Char ++
            [b64Char (a / 4), b64Char (a % 4 * 16 + b / 16), b64Char (b % 16 * 4), c])
          [] ?_ ?_)
        · have hnd : ∀ z ∈ (b64Groups u).map b64Char ++
              [b64Char (a / 4), b64Char (a % 4 * 16 + b / 16), b64Char (b % 16 * 4), c],
              z ≠ '.' := by
            intro z hz
            rcases List.mem_append.mp hz with hm | hz4
            · exact hm40dot z hm
            · rcases (by simpa using hz4 : z = b64Char (a / 4) ∨
                  z = b64Char (a % 4 * 16 + b / 16) ∨ z = b64Char (b % 16 * 4) ∨ z = c) with
                rfl | rfl | rfl | rfl
              · exact b64Char_ne_dot _ hg0
              · exact b64Char_ne_dot _ hg1
              · exact b64Char_ne_dot _ hg2
              · exact hdotc
          rw [splitDot_append _ _ hpbSnodot, splitDot_no_dot _ hnd]
        · intro g hg
          have hcws : isB64Ws c = false := by revert hwsc; cases isB64Ws c <;> simp
          have hfself : ((b64Groups u).map b64Char ++
              [b64Char (a / 4), b64Char (a % 4 * 16 + b / 16), b64Char (b % 16 * 4),
                c]).filter (fun z => !isB64Ws z) =
              ((b64Groups u).map b64Char ++
                [b64Char (a / 4), b64Char (a % 4 * 16 + b / 16), b64Char (b % 16 * 4)]) ++
                [c] := by
            rw [List.filter_eq_self.mpr]
            · simp
            · intro z hz
              rcases List.mem_append.mp hz with hm | hz4
              · simp [hm40ws z hm]
              · rcases (by simpa using hz4 : z = b64Char (a / 4) ∨
                    z = b64Char (a % 4 * 16 + b / 16) ∨ z = b64Char (b % 16 * 4) ∨ z = c)
                  with rfl | rfl | rfl | rfl
                · simp [b64Char_not_ws _ hg0]
                · simp [b64Char_not_ws _ hg1]
                · simp [b64Char_not_ws _ hg2]
                · simp [hcws]
          rw [atob_last_bad _ _ c hfself
            (by simp only [List.length_append, List.length_map, hGulen,
              List.length_cons, List.length_nil])
            hc c (by simp) hidxc] at hg
          simp at hg

/-- Characterisation of flipping one of the final four token characters. -/
theorem flip_last4 (p : PoeSessionUser) (secret : JStr) (now : Nat) (i : Nat) (c : Char)
    (hp : jsonSafePayload p = true)
    (hi4 : (createSessionToken p secret).length - 4 ≤ i)
    (hi : i < (createSessionToken p secret).length)
    (hc : c ≠ (createSessionToken p secret).getD i (' ')) :
    verifySessionToken ((createSessionToken p secret).set i c) secret now = none ∨
    (i = (createSessionToken p secret).length - 2 ∧
      (∃ v w, b64Index ((createSessionToken p secret).getD i (' ')) = some v ∧
        b64Index c = some w ∧ w / 4 = v / 4) ∧
      verifySessionToken ((createSessionToken p secret).set i c) secret now =
        verifySessionToken (createSessionToken p secret) secret now) ∨
    (i = (createSessionToken p secret).length - 1 ∧ (isB64Ws c = true ∨ c = '.') ∧
      verifySessionToken ((createSessionToken p secret).set i c) secret now =
        verifySessionToken (createSessionToken p secret) secret now) := by
  obtain ⟨u, a, b, hsig, hu, hult, ha, hb⟩ := bytes32_shape
    (hmacSha256 (utf8Encode secret) (utf8Encode (btoaBytes (charBytes (encodePayload p)))))
    (hmacSha256_length _ _) (hmacSha256_lt _ _)
  have hsb : btoaBytes (hmacSha256 (utf8Encode secret)
      (utf8Encode (btoaBytes (charBytes (encodePayload p))))) =
      (b64Groups u).map b64Char ++
        [b64Char (a / 4), b64Char (a % 4 * 16 + b / 16), b64Char (b % 16 * 4), '='] := by
    rw [hsig, btoa_sig_shape u a b hu]
  have htok : createSessionToken p secret =
      btoaBytes (charBytes (encodePayload p)) ++ '.' ::
        ((b64Groups u).map b64Char ++
          [b64Char (a / 4), b64Char (a % 4 * 16 + b / 16), b64Char (b % 16 * 4), '=']) := by
    rw [show createSessionToken p secret = btoaBytes (charBytes (encodePayload p)) ++ '.' ::
      btoaBytes (hmacSha256 (utf8Encode secret)
        (utf8Encode (btoaBytes (charBytes (encodePayload p))))) from rfl, hsb]
  have hGulen : (b64Groups u).length = 40 := by rw [b64Groups_length, hu]; norm_num
  have hm40len : ((b64Groups u).map b64Char).length = 40 := by
    rw [List.length_map, hGulen]
  have htoklen : (createSessionToken p secret).length =
      (btoaBytes (charBytes (encodePayload p))).length + 45 := by
    rw [htok]
    simp only [List.length_append, List.length_cons, List.length_nil, hm40len]
  obtain ⟨k, hk4, hik⟩ : ∃ k, k < 4 ∧
      i = (btoaBytes (charBytes (encodePayload p))).length + 1 + (40 + k) :=
    ⟨i - (btoaBytes (charBytes (encodePayload p))).length - 41, by omega, by omega⟩
  have hset : (createSessionToken p secret).set i c =
      btoaBytes (charBytes (encodePayload p)) ++ '.' ::
        ((b64Groups u).map b64Char ++
          ([b64Char (a / 4), b64Char (a % 4 * 16 + b / 16),
            b64Char (b % 16 * 4), '='].set k c)) := by
    rw [htok, hik, List.set_append_right _ _ (by omega),
      show (btoaBytes (charBytes (encodePayload p))).length + 1 + (40 + k) -
        (btoaBytes (charBytes (encodePayload p))).length = (40 + k) + 1 from by omega,
      List.set_cons_succ, List.set_append_right _ _ (by rw [hm40len]; omega), hm40len,
      Nat.add_sub_cancel_left]
  have hgetD : (createSessionToken p secret).getD i (' ') =
      [b64Char (a / 4), b64Char (a % 4 * 16 + b / 16),
        b64Char (b % 16 * 4), '='].getD k (' ') := by
    rw [htok, hik, List.getD_append_right _ _ _ _ (by omega),
      show (btoaBytes (charBytes (encodePayload p))).length + 1 + (40 + k) -
        (btoaBytes (charBytes (encodePayload p))).length = (40 + k) + 1 from by omega,
      List.getD_cons_succ, List.getD_append_right _ _ _ _ (by rw [hm40len]; omega), hm40len,
      Nat.add_sub_cancel_left]
  rw [hset]
  rw [hgetD] at hc
  interval_cases k
  · simp only [List.set] at *
    simp only [List.getD_cons_zero] at hc
    exact Or.inl (flip_sig_k0 p secret now u a b c hp hsig hu hult ha hb hc)
  · simp only [List.set] at *
    simp only [List.getD_cons_succ, List.getD_cons_zero] at hc
    exact Or.inl (flip_sig_k1 p secret now u a b c hp hsig hu hult ha hb hc)
  · simp only [List.set] at *
    simp only [List.getD_cons_succ, List.getD_cons_zero] at hc
    rcases flip_sig_k2 p secret now u a b c hp hsig hu hult ha hb hc with h | ⟨hex, heq⟩
    · exact Or.inl h
    · refine Or.inr (Or.inl ⟨by omega, ?_, heq⟩)
      obtain ⟨w, hw1, hw2⟩ := hex
      have hgv : (createSessionToken p secret).getD i (' ') = b64Char (b % 16 * 4) := by
        rw [hgetD]
        simp [List.getD]
      exact ⟨b % 16 * 4, w, by rw [hgv]; exact b64Index_b64Char _ (by omega), hw1, hw2⟩
  · simp only [List.set] at *
    simp only [List.getD_cons_succ, List.getD_cons_zero] at hc
    rcases flip_sig_k3 p secret now u a b c hp hsig hu hult ha hb hc with h | ⟨hcls, heq⟩
    · exact Or.inl h
    · exact Or.inr (Or.inr ⟨by omega, hcls, heq⟩)

set_option maxRecDepth 10000 in
/-- C5 counterexample: the claim says flipping any single character among
the final four of an issued token makes verification return null, but
replacing the trailing padding character with a space yields a different
token that still verifies to the original payload, because
forgiving-base64 strips ASCII whitespace before decoding. -/
theorem C5_counterexample :
    (let p : PoeSessionUser := ⟨cs ("abc123"), cs ("5678"), [], 1000000⟩
     let s := cs ("test-session-secret")
     let tok := createSessionToken p s
     let tam := tok.set (tok.length - 1) ' '
     tam ≠ tok ∧ tok.length - 4 ≤ tok.length - 1 ∧
       verifySessionToken tam s 2000000 = some p) := by decide

/-- C5 (amended): a single-character flip of an issued token is rejected,
with precisely characterised exceptions.  (a) Flipping one of the final
four characters yields null, except flips of the last base64 data
character (position length−2) to an alphabet character with the same high
four bits, and flips of the trailing `=` (position length−1) to ASCII
whitespace or `.`, all of which verify exactly like the original token.
(b) Flipping a payload-segment character to anything but a dot yields null
whenever the recomputed HMAC of the altered payload differs from the
stored signature (which HMAC security guarantees except with negligible
probability).  (c) Flipping a payload-segment character to a dot yields
null whenever the base64 decode of the remainder of the payload segment
does not equal the HMAC of its shortened prefix. -/
theorem C5_single_flip (p : PoeSessionUser) (secret : JStr) (now : Nat)
    (hp : jsonSafePayload p = true) :
    (∀ i c, (createSessionToken p secret).length - 4 ≤ i →
      i < (createSessionToken p secret).length →
      c ≠ (createSessionToken p secret).getD i (' ') →
      verifySessionToken ((createSessionToken p secret).set i c) secret now = none ∨
      (i = (createSessionToken p secret).length - 2 ∧
        (∃ v w, b64Index ((createSessionToken p secret).getD i (' ')) = some v ∧
          b64Index c = some w ∧ w / 4 = v / 4) ∧
        verifySessionToken ((createSessionToken p secret).set i c) secret now =
          verifySessionToken (createSessionToken p secret) secret now) ∨
      (i = (createSessionToken p secret).length - 1 ∧ (isB64Ws c = true ∨ c = '.') ∧
        verifySessionToken ((createSessionToken p secret).set i c) secret now =
          verifySessionToken (createSessionToken p secret) secret now)) ∧
    (∀ i c, i < (btoaBytes (charBytes (encodePayload p))).length → c ≠ '.' →
      hmacSha256 (utf8Encode secret)
          (utf8Encode ((btoaBytes (charBytes (encodePayload p))).set i c)) ≠
        hmacSha256 (utf8Encode secret)
          (utf8Encode (btoaBytes (charBytes (encodePayload p)))) →
      verifySessionToken ((createSessionToken p secret).set i c) secret now = none) ∧
    (∀ i, i < (btoaBytes (charBytes (encodePayload p))).length →
      (∀ g, atobBytes ((btoaBytes (charBytes (encodePayload p))).drop (i + 1)) = some g →
        g ≠ hmacSha256 (utf8Encode secret)
          (utf8Encode ((btoaBytes (charBytes (encodePayload p))).take i))) →
      verifySessionToken ((createSessionToken p secret).set i ('.')) secret now = none) :=
  ⟨fun i c h1 h2 h3 => flip_last4 p secret now i c hp h1 h2 h3,
   fun i c h1 h2 h3 => flip_payload p secret now i c hp h1 h2 h3,
   fun i h1 h2 => flip_payload_dot p secret now i hp h1 h2⟩

set_option maxRecDepth 10000 in
/-- C5 witness: flipping the first payload character of a concrete token
makes verification fail. -/
theorem C5_single_flip_witness :
    verifySessionToken
      ((createSessionToken ⟨cs ("abc123"), cs ("5678"), [], 1000000⟩
        (cs ("test-session-secret"))).set 0 ('X')) (cs ("test-session-secret")) 2000000 =
      none :=
  (C5_single_flip ⟨cs ("abc123"), cs ("5678"), [], 1000000⟩
    (cs ("test-session-secret")) 2000000 (by decide)).2.1 0 ('X')
    (by decide) (by decide) (by decide)
